import Mathlib

/-!
Verification of the BURST questionnaire tools (`server.py`, `reorganize.py`).

The document format is line oriented, so the whole development works on
`Line := List Char` (one line of text, never containing a newline) and
`List Line` (a document, the result of Python's `text.split("\n")`).
Every definition in the first half of the file is a direct translation of
a function or regular expression of the source; the second half contains
the theorems about them.
-/

namespace Burst

/-- One line of text (the characters between two newlines). -/
abbrev Line := List Char

/-- Whitespace in the sense of Python's `str.strip` / regex `\s`
(restricted to the ASCII whitespace characters). -/
def pySpace (c : Char) : Bool :=
  c == ' ' || c == '\t' || c == '\n' || c == '\r' || c == '\x0b' || c == '\x0c'

/-- ASCII decimal digit, regex `\d`. -/
def isDig (c : Char) : Bool := '0' ≤ c && c ≤ '9'

/-- Regex class `[a-z]`. -/
def isLowerAZ (c : Char) : Bool := 'a' ≤ c && c ≤ 'z'

/-- Regex class `[a-zA-Z]`. -/
def isLetterAZ (c : Char) : Bool := isLowerAZ c || ('A' ≤ c && c ≤ 'Z')

/-- Regex word character `\w` = `[A-Za-z0-9_]` (ASCII). -/
def isWordChar (c : Char) : Bool := isLetterAZ c || isDig c || c == '_'

/-- Python `str.strip()` : drop whitespace from both ends of a line. -/
def trimL (l : Line) : Line :=
  ((l.dropWhile pySpace).reverse.dropWhile pySpace).reverse

/-- Python `text.split("\n")` : always returns at least one (possibly
empty) line; interior lines never contain a newline character. -/
def splitLines : Line → List Line
  | [] => [[]]
  | c :: rest =>
    if c = '\n' then [] :: splitLines rest
    else
      match splitLines rest with
      | [] => [[c]]
      | l :: ls => (c :: l) :: ls

/-- Python `"\n".join(lines)`. -/
def joinL (ls : List Line) : Line := List.intercalate ['\n'] ls

/-- `"\n".join(buf).strip()` as used for answer slots. -/
def joinTrim (ls : List Line) : Line := trimL (joinL ls)

/-- If `pat` is a prefix of `l`, return the rest of `l`. -/
def dropPref : List Char → Line → Option Line
  | [], l => some l
  | _ :: _, [] => none
  | p :: ps, c :: cs => if c = p then dropPref ps cs else none

/-- `l.startswith(pat)` for a concrete pattern. -/
def startsW (pat : List Char) (l : Line) : Bool := (dropPref pat l).isSome

/-- Numeric value of a digit run (Python `int`). -/
def natOfDigits (ds : List Char) : Nat :=
  ds.foldl (fun n c => n * 10 + (c.toNat - 48)) 0

/-! ### The regular expressions of `server.py` -/

/-- `re.match(r"^## (\d+)\. (.+)", line)` — section header.  Returns
(`int(group(1))`, `group(2)`).  `\d+` is greedy and the following literal
`.` cannot match a digit, so the digit group is exactly the maximal digit
run. -/
def sectionHdr? (l : Line) : Option (Nat × Line) :=
  match dropPref ['#', '#', ' '] l with
  | none => none
  | some r =>
    let ds := r.takeWhile isDig
    if ds.isEmpty then none
    else
      match r.dropWhile isDig with
      | '.' :: ' ' :: rest => if rest.isEmpty then none else some (natOfDigits ds, rest)
      | _ => none

/-- `re.match(r"^### (\d+\.\d+) (.+)", line)` — question header.
Returns (`group(1)` = the dotted id, `group(2)` = the title).  Both digit
runs are maximal (the characters after them, `.` and a space, cannot
match `\d`). -/
def questionHdrFull? (l : Line) : Option (Line × Line) :=
  match dropPref ['#', '#', '#', ' '] l with
  | none => none
  | some r =>
    let d1 := r.takeWhile isDig
    if d1.isEmpty then none
    else
      match r.dropWhile isDig with
      | '.' :: r2 =>
        let d2 := r2.takeWhile isDig
        if d2.isEmpty then none
        else
          match r2.dropWhile isDig with
          | ' ' :: rest => if rest.isEmpty then none else some (d1 ++ '.' :: d2, rest)
          | _ => none
      | _ => none

/-- `re.match(r"^### (\d+\.\d+)", line)` as used by `save_answers` (no
title is required after the id). -/
def qidPrefix? (l : Line) : Option Line :=
  match dropPref ['#', '#', '#', ' '] l with
  | none => none
  | some r =>
    let d1 := r.takeWhile isDig
    if d1.isEmpty then none
    else
      match r.dropWhile isDig with
      | '.' :: r2 =>
        let d2 := r2.takeWhile isDig
        if d2.isEmpty then none else some (d1 ++ '.' :: d2)
      | _ => none

/-- `re.match(r"^Your answers?\b", line)`.  After the literal prefix an
optional `s` is consumed, and `\b` requires the next character (if any)
to be a non-word character; if the optional `s` is followed by a word
character the engine backtracks to the empty `s?`, where `\b` then sits
between `r` and `s` and fails. -/
def markerRE (l : Line) : Bool :=
  match dropPref ['Y', 'o', 'u', 'r', ' ', 'a', 'n', 's', 'w', 'e', 'r'] l with
  | none => false
  | some [] => true
  | some ('s' :: rest) =>
    match rest with
    | [] => true
    | c :: _ => !isWordChar c
  | some (c :: _) => !isWordChar c

/-- `re.match(r"^If \(([a-z])\)", peek)` — the rewriter's sub-prompt
boundary test (prefix only). -/
def subPromptPrefix (l : Line) : Bool :=
  match l with
  | 'I' :: 'f' :: ' ' :: '(' :: c :: ')' :: _ => isLowerAZ c
  | _ => false

/-- `re.match(r"^If \(([a-z])\),?\s*(.+)", line)` — the parser's
sub-prompt pattern.  After `)` the engine can always complete a match
(via backtracking through `,?` and `\s*`) exactly when at least one
character remains. -/
def subPromptFull (l : Line) : Bool :=
  match l with
  | 'I' :: 'f' :: ' ' :: '(' :: c :: ')' :: rest => isLowerAZ c && !rest.isEmpty
  | _ => false

/-- `peek.startswith("|") and "|" in peek[1:]` — the rewriter's
table-row lookahead. -/
def tableLike (l : Line) : Bool :=
  match l with
  | '|' :: rest => rest.contains '|'
  | _ => false

/-- The boundary predicate of the rewriter's skip loop in
`save_answers` (`server.py` lines 177-189), in the source's order. -/
def rBoundary (peek : Line) : Bool :=
  startsW ['#', '#', '#', ' '] peek ||
  startsW ['#', '#', ' '] peek ||
  startsW ['-', '-', '-'] peek ||
  subPromptPrefix peek ||
  markerRE peek ||
  tableLike peek ||
  startsW ['*', '*'] peek

/-- The lines that end the currently collected answer slot in
`parse_markdown` (`server.py` lines 44-105): a section header, a
question header, a further answer marker, a stripped `---` divider, or a
full sub-prompt line. -/
def pBoundary (l : Line) : Bool :=
  (sectionHdr? l).isSome ||
  (questionHdrFull? l).isSome ||
  markerRE l ||
  trimL l == ['-', '-', '-'] ||
  subPromptFull l

/-! ### The answer rewriter (`save_answers`, `server.py` lines 156-201)

The Python loop walks the line list with an index, tracking the current
question id and a per-question slot counter; on an answer-marker line it
emits the marker, consumes (without emitting) every following line until
one satisfies `rBoundary`, then emits the looked-up answer (when present
and non-blank) and one blank line, and reprocesses the boundary line.
Here the inner while loop becomes a `pend` state holding the lines still
to be inserted at the slot's end.  The Python code appends the looked-up
answer as a single (possibly multi-line) string and joins with newlines
at the end; we pre-split it into lines (`splitLines`), which joins to
the same final text. -/

/-- An answer mapping, Python's `answers: dict[str, str]` (`none` =
key absent). -/
abbrev AMap := Line → Option Line

/-- `f"{cur_qid}_{answer_idx}"`. -/
def keyOf (qid : Line) (i : Nat) : Line := qid ++ '_' :: (Nat.toDigits 10 i)

/-- The `### (\d+\.\d+)` tracking of `save_answers`: a matching line
resets the slot counter to 0 and replaces the current question id. -/
def stepQid (q : Option Line) (i : Nat) (l : Line) : Option Line × Nat :=
  match qidPrefix? l with
  | some qid => (some qid, 0)
  | none => (q, i)

/-- Lines inserted for an (optional) slot key: `answers[key]` split
into lines if the key exists and its text is non-blank; else nothing
(`server.py` lines 191-193). -/
def insOfKey (ans : AMap) : Option Line → List Line
  | none => []
  | some k =>
    match ans k with
    | none => []
    | some v => if trimL v = [] then [] else splitLines v

/-- The lines inserted for one slot, from the current question id and
slot counter. -/
def slotIns (ans : AMap) (q : Option Line) (i : Nat) : List Line :=
  insOfKey ans (q.map (keyOf · i))

/-- The main loop of `save_answers`.  `pend = some ins` means we are
inside the skip loop of a matched slot, with `ins` the lines to emit at
its end (followed by one blank line). -/
def saveGo (ans : AMap) : Option Line → Nat → Option (List Line) → List Line → List Line
  | _, _, none, [] => []
  | _, _, some ins, [] => ins ++ [[]]
  | q, i, some ins, l :: rest =>
    if rBoundary l then
      let (q', i') := stepQid q i l
      if markerRE l then
        ins ++ [[]] ++ l :: saveGo ans q' (i' + 1) (some (slotIns ans q' i')) rest
      else
        ins ++ [[]] ++ l :: saveGo ans q' i' none rest
    else
      saveGo ans q i (some ins) rest
  | q, i, none, l :: rest =>
    let (q', i') := stepQid q i l
    if markerRE l then
      l :: saveGo ans q' (i' + 1) (some (slotIns ans q' i')) rest
    else
      l :: saveGo ans q' i' none rest

/-- `save_answers` on a line list. -/
def saveLines (ans : AMap) (ls : List Line) : List Line := saveGo ans none 0 none ls

/-- `save_answers` on whole text: split, rewrite, join. -/
def rewriteText (ans : AMap) (t : Line) : Line := joinL (saveLines ans (splitLines t))

/-! ### Slot decomposition of the rewriter's scan

`segsGo` performs exactly the scan of `saveGo` but instead of rewriting
it records the decomposition of the input into plain lines and answer
slots (marker, key, old content).  It is the specification-side view
against which the rewriter is proved to be a slot-wise replacement. -/

/-- A piece of the document as seen by the rewriter's scan. -/
inductive Seg where
  | plain (l : Line)
  | slot (marker : Line) (key : Option Line) (content : List Line)
deriving DecidableEq, Repr

/-- The original lines of a segment. -/
def segLines : Seg → List Line
  | .plain l => [l]
  | .slot m _ c => m :: c

/-- The input lines of a list of segments. -/
def segsLines (ss : List Seg) : List Line := (ss.map segLines).flatten

/-- The key of a slot segment. -/
def segKey : Seg → Option Line
  | .plain _ => none
  | .slot _ k _ => k

/-- What the rewriter emits for one segment: plain lines verbatim; for a
slot, the marker, the looked-up insertion and one blank line — the old
content is dropped entirely. -/
def replaceSeg (ans : AMap) : Seg → List Line
  | .plain l => [l]
  | .slot m k _ => m :: insOfKey ans k ++ [[]]

/-- The rewriter's output for a list of segments. -/
def segsOut (ans : AMap) (ss : List Seg) : List Line := (ss.map (replaceSeg ans)).flatten

/-- A segment after rewriting, as the rewriter's scan would see it
again: slot content becomes the inserted lines plus the blank line. -/
def reSlot (ans : AMap) : Seg → Seg
  | .plain l => .plain l
  | .slot m k _ => .slot m k (insOfKey ans k ++ [[]])

/-- The scan of `saveGo`, producing the slot decomposition instead of
the rewritten text.  `pend = some (m, k, c)` holds the marker, key and
old content accumulated so far for the slot being skipped. -/
def segsGo : Option Line → Nat → Option (Line × Option Line × List Line) → List Line → List Seg
  | _, _, none, [] => []
  | _, _, some (m, k, c), [] => [.slot m k c]
  | q, i, some (m, k, c), l :: rest =>
    if rBoundary l then
      let (q', i') := stepQid q i l
      if markerRE l then
        .slot m k c :: segsGo q' (i' + 1) (some (l, q'.map (keyOf · i'), [])) rest
      else
        .slot m k c :: .plain l :: segsGo q' i' none rest
    else
      segsGo q i (some (m, k, c ++ [l])) rest
  | q, i, none, l :: rest =>
    let (q', i') := stepQid q i l
    if markerRE l then
      segsGo q' (i' + 1) (some (l, q'.map (keyOf · i'), [])) rest
    else
      .plain l :: segsGo q' i' none rest

/-- Slot decomposition of a document as the rewriter scans it. -/
def docSegs (ls : List Line) : List Seg := segsGo none 0 none ls

/-! ### The document parser (`parse_markdown`, `server.py` lines 24-151) -/

/-- A multiple-choice option: `{"id": letter, "text": ..., "default": ...}`. -/
structure QOption where
  oid : Char
  text : Line
  deflt : Bool
deriving DecidableEq, Repr

/-- A parsed table: `{"headers": ..., "rows": ...}`. -/
structure QTable where
  headers : List Line
  rows : List (List Line)
deriving DecidableEq, Repr

/-- A parsed question. -/
structure Question where
  qid : Line
  title : Line
  description : Line
  options : List QOption
  table : Option QTable
  answers : List Line
  subPrompts : List Line
deriving DecidableEq, Repr

/-- A parsed section. -/
structure Sec where
  sid : Nat
  title : Line
  questions : List Question
deriving DecidableEq, Repr

/-- `re.match(r"^- \*\*\(([a-zA-Z])\)\s*(.+?)\*\*(.*)", line)` — the
bold (default) option pattern.  After the literal prefix and the letter,
`\s*` greedily takes the maximal whitespace run `W`; `(.+?)` then grows
minimally until a literal `**`.  If the only `**` starts right after the
whitespace, `\s*` backtracks by one character so that `(.+?)` is that
single whitespace character.  Returns (letter, group(2), group(3)). -/
def firstSS (l : Line) : Option Nat :=
  match l with
  | '*' :: '*' :: _ => some 0
  | _ :: rest => (firstSS rest).map (· + 1)
  | [] => none

/-- First index `≥ k` at which `**` occurs. -/
def firstSSFrom (l : Line) (k : Nat) : Option Nat :=
  (firstSS (l.drop k)).map (· + k)

/-- The bold-option match (see `firstSS` for the backtracking rules). -/
def boldOpt? (l : Line) : Option (Char × Line × Line) :=
  match l with
  | '-' :: ' ' :: '*' :: '*' :: '(' :: c :: ')' :: rest =>
    if isLetterAZ c then
      let w := (rest.takeWhile pySpace).length
      match firstSSFrom rest (w + 1) with
      | some p => some (c, (rest.drop w).take (p - w), rest.drop (p + 2))
      | none =>
        if 0 < w then
          match firstSSFrom rest w with
          | some _ => some (c, [rest.getD (w - 1) ' '], rest.drop (w + 2))
          | none => none
        else none
    else none
  | _ => none

/-- `re.match(r"^- \(([a-zA-Z])\)\s*(.+)", line)` — the non-default
option pattern.  Matches iff at least one character follows `)`;
`group(2).strip()` always equals the stripped remainder. -/
def plainOpt? (l : Line) : Option (Char × Line) :=
  match l with
  | '-' :: ' ' :: '(' :: c :: ')' :: rest =>
    if isLetterAZ c && !rest.isEmpty then some (c, trimL rest) else none
  | _ => none

/-- Python `ch.lower()` for the option letter (ASCII). -/
def lowerAZ (c : Char) : Char :=
  if 'A' ≤ c && c ≤ 'Z' then Char.ofNat (c.toNat + 32) else c

/-- `line.strip().split("|")[1:-1]`, each cell stripped. -/
def tableCells (l : Line) : List Line :=
  ((((trimL l).splitOn '|').drop 1).dropLast).map trimL

/-- A separator row: every cell matches `^[-:]+$`. -/
def sepCells (cells : List Line) : Bool :=
  cells.all (fun c => !c.isEmpty && c.all (fun ch => ch == '-' || ch == ':'))

/-- State of the `_process_body` fold. -/
structure BodyAcc where
  descParts : List Line
  options : List QOption
  tableHeaders : Option (List Line)
  tableRows : List (List Line)

/-- One iteration of the `_process_body` loop (`server.py` 117-146),
with the source's branch order: bold option, plain option, table row,
non-blank description line. -/
def bodyStep (a : BodyAcc) (l : Line) : BodyAcc :=
  match boldOpt? l with
  | some (c, txt, extra) =>
    let t := trimL txt
    let e := trimL extra
    let t := if e.isEmpty then t else t ++ ' ' :: e
    { a with options := a.options ++ [⟨lowerAZ c, t, true⟩] }
  | none =>
  match plainOpt? l with
  | some (c, txt) => { a with options := a.options ++ [⟨lowerAZ c, txt, false⟩] }
  | none =>
  if startsW ['|'] (trimL l) then
    let cells := tableCells l
    if sepCells cells then a
    else
      match a.tableHeaders with
      | none => { a with tableHeaders := some cells }
      | some _ => { a with tableRows := a.tableRows ++ [cells] }
  else if (trimL l).isEmpty then a
  else { a with descParts := a.descParts ++ [l] }

/-- `_process_body`: classify the accumulated body lines, returning the
description, options and table fields (`if table_headers:` is Python
truthiness — an empty header list also yields no table). -/
def processBody (lines : List Line) : Line × List QOption × Option QTable :=
  let a := lines.foldl bodyStep ⟨[], [], none, []⟩
  let tbl := match a.tableHeaders with
    | some hs => if hs.isEmpty then none else some ⟨hs, a.tableRows⟩
    | none => none
  (joinTrim a.descParts, a.options, tbl)

/-- The mutable state of `parse_markdown`'s loop.  Completed sections
are kept in order in `secs`; the current section's already flushed
questions in `curQs`.  A question created while no section exists is
processed but attached nowhere (`attached = false`). -/
structure CurQ where
  qid : Line
  title : Line
  attached : Bool
  answers : List Line
  subPrompts : List Line
deriving DecidableEq, Repr

structure PState where
  secs : List Sec
  curSec : Option (Nat × Line)
  curQs : List Question
  curQ : Option CurQ
  bodyBuf : List Line
  ansBuf : List Line
  collecting : Bool

/-- The finished question `flush_question` produces (`server.py` lines
33-42): the pending answer slot is appended when one is being
collected, and the body is classified. -/
def finalQ (s : PState) (c : CurQ) : Question :=
  ⟨c.qid, c.title,
   (processBody s.bodyBuf).1, (processBody s.bodyBuf).2.1, (processBody s.bodyBuf).2.2,
   if s.collecting then c.answers ++ [joinTrim s.ansBuf] else c.answers,
   c.subPrompts⟩

def flushQ (s : PState) : PState :=
  match s.curQ with
  | none => s
  | some c =>
    { s with curQ := none, bodyBuf := [], ansBuf := [], collecting := false,
             curQs := if c.attached then s.curQs ++ [finalQ s c] else s.curQs }

/-- Close the current section record (if any). -/
def closedSecs (s : PState) : List Sec :=
  s.secs ++ (match s.curSec with
             | some (n, t) => [⟨n, t, s.curQs⟩]
             | none => [])

/-- One iteration of the `parse_markdown` loop (`server.py` 44-105),
with the source's branch order. -/
def pstep (s : PState) (l : Line) : PState :=
  match sectionHdr? l with
  | some (n, t) =>
    let s := flushQ s
    { s with secs := closedSecs s, curSec := some (n, trimL t), curQs := [], curQ := none }
  | none =>
  match questionHdrFull? l with
  | some (qid, t) =>
    let s := flushQ s
    { s with curQ := some ⟨qid, trimL t, s.curSec.isSome, [], []⟩,
             collecting := false, bodyBuf := [], ansBuf := [] }
  | none =>
  match s.curQ with
  | none => s
  | some c =>
    if markerRE l then
      if s.collecting then
        { s with curQ := some { c with answers := c.answers ++ [joinTrim s.ansBuf] },
                 ansBuf := [], collecting := true }
      else { s with collecting := true }
    else if s.collecting then
      if trimL l = ['-', '-', '-'] then
        { s with curQ := some { c with answers := c.answers ++ [joinTrim s.ansBuf] },
                 ansBuf := [], collecting := false }
      else if subPromptFull l then
        { s with curQ := some { c with answers := c.answers ++ [joinTrim s.ansBuf],
                                       subPrompts := c.subPrompts ++ [l] },
                 ansBuf := [], collecting := false, bodyBuf := s.bodyBuf ++ [l] }
      else { s with ansBuf := s.ansBuf ++ [l] }
    else { s with bodyBuf := s.bodyBuf ++ [l] }

/-- The empty initial parse state. -/
def pinit : PState := ⟨[], none, [], none, [], [], false⟩

/-- `parse_markdown` on a line list: run the loop, flush, return the
sections. -/
def parseLines (ls : List Line) : List Sec :=
  closedSecs (flushQ (ls.foldl pstep pinit))

/-- `parse_markdown` on whole text. -/
def parseText (t : Line) : List Sec := parseLines (splitLines t)

/-! ### The structure migrator (`reorganize.py`) -/

/-- `re.match(r"^## \d+\.", raw)` — the migrator's section test (no
title or trailing space required, unlike the server's). -/
def secPrefixRE (l : Line) : Bool :=
  match dropPref ['#', '#', ' '] l with
  | none => false
  | some r =>
    let ds := r.takeWhile isDig
    !ds.isEmpty && (match r.dropWhile isDig with
                    | '.' :: _ => true
                    | _ => false)

/-- Raw blocks: `{old_id: {"title": ..., "body": ...}}` as an ordered
association list with Python-dict insertion semantics (re-inserting an
existing key replaces the value but keeps the original position). -/
abbrev RawBlocks := List (Line × Line × Line)

/-- `blocks[k] = (title, body)` with dict insertion order. -/
def dictSet (bs : RawBlocks) (k : Line) (v : Line × Line) : RawBlocks :=
  if bs.any (fun b => b.1 = k)
  then bs.map (fun b => if b.1 = k then (k, v) else b)
  else bs ++ [(k, v)]

/-- `blocks[cur_id]["body"] = body` (the key is present when called). -/
def dictSetBody (bs : RawBlocks) (k : Line) (body : Line) : RawBlocks :=
  bs.map (fun b => if b.1 = k then (k, b.2.1, body) else b)

/-- Trailing blank / `---` lines stripped by `parse_raw`'s flush. -/
def isBlankOrDivider (l : Line) : Bool := (trimL l).isEmpty || trimL l == ['-', '-', '-']

/-- `while lines and lines[-1].strip() in ("", "---"): lines.pop()`. -/
def dropTrailingJunk (ls : List Line) : List Line :=
  (ls.reverse.dropWhile isBlankOrDivider).reverse

/-- `flush` of `parse_raw` (`reorganize.py` lines 18-27). -/
def rawFlush (bs : RawBlocks) (cur : Option Line) (lines : List Line) : RawBlocks :=
  match cur with
  | none => bs
  | some k => dictSetBody bs k (joinL (dropTrailingJunk lines))

/-- The loop of `parse_raw` (`reorganize.py` lines 29-43). -/
def rawGo (bs : RawBlocks) (cur : Option Line) (lines : List Line) : List Line → RawBlocks
  | [] => rawFlush bs cur lines
  | l :: rest =>
    match questionHdrFull? l with
    | some (qid, t) =>
      rawGo (dictSet (rawFlush bs cur lines) qid (trimL t, [])) (some qid) [] rest
    | none =>
      if secPrefixRE l then rawGo (rawFlush bs cur lines) none [] rest
      else
        match cur with
        | none => rawGo bs none lines rest
        | some _ => rawGo bs cur (lines ++ [l]) rest

/-- `parse_raw(text)`. -/
def parseRaw (ls : List Line) : RawBlocks := rawGo [] none [] ls

/-- The sort key of the warning loop:
`(int(x.split(".")[0]), int(x.split(".")[1]))`.  Ids coming from
`parse_raw` always have the dotted digits form, on which `int` is
total. -/
def idKey (id : Line) : Nat × Nat :=
  let parts := id.splitOn '.'
  (natOfDigits (parts.getD 0 []), natOfDigits (parts.getD 1 []))

/-- Ascending lexicographic comparison of sort keys (Python tuple `<=`). -/
def idLE (a b : Line) : Bool :=
  (idKey a).1 < (idKey b).1 ||
  ((idKey a).1 == (idKey b).1 && (idKey a).2 ≤ (idKey b).2)

/-- A restructuring plan: `STRUCTURE`, a list of
(section title, old question ids). -/
abbrev Plan := List (Line × List Line)

/-- `f"## {sec_idx}. {sec_title}"`. -/
def secHeaderLine (i : Nat) (t : Line) : Line :=
  '#' :: '#' :: ' ' :: Nat.toDigits 10 i ++ '.' :: ' ' :: t

/-- `f"### {sec_idx}.{q_idx} {title}"`. -/
def qHeaderLine (i j : Nat) (t : Line) : Line :=
  '#' :: '#' :: '#' :: ' ' :: Nat.toDigits 10 i ++ '.' :: (Nat.toDigits 10 j ++ ' ' :: t)

/-- The inner question loop of `generate` (`reorganize.py` 280-288):
emits renumbered headers with bodies verbatim, collects the ids missing
from the source, and advances the ordinal also across missing ids
(Python `enumerate`).  A body is a single (possibly multi-line) string
in the source; splitting it into lines and joining at the end produces
the same text. -/
def genQs (bs : RawBlocks) (si : Nat) : Nat → List Line → List Line × List Line
  | _, [] => ([], [])
  | j, qid :: rest =>
    let (out, errs) := genQs bs si (j + 1) rest
    match bs.lookup qid with
    | none => (out, qid :: errs)
    | some (t, b) => (qHeaderLine si j t :: splitLines b ++ [[]] ++ out, errs)

/-- The section loop of `generate` (`reorganize.py` 274-288). -/
def genSecs (bs : RawBlocks) : Nat → Plan → List Line × List Line
  | _, [] => ([], [])
  | i, (t, qids) :: rest =>
    let (qout, qerrs) := genQs bs i 1 qids
    let (out, errs) := genSecs bs (i + 1) rest
    (['-', '-', '-'] :: [] :: secHeaderLine i t :: [] :: qout ++ out, qerrs ++ errs)

/-- The fixed preamble of the generated document. -/
def genPreamble : List Line :=
  [("# BURST Implementation Decisions").data,
   [],
   ("Fill in your answers below each question. Where a default is suggested in **bold**, you can just write \"default\" or leave blank to accept it.").data,
   []]

/-- The fixed closing of the generated document (the final line
contains two apostrophes, written via their character code). -/
def genTail : List Line :=
  [['-', '-', '-'],
   [],
   ("**Instructions**: Write your answer below each question, or write \"default\" to accept the bolded suggestion. If you disagree with any of my suggested defaults, just override them. Leave blank = accept default.").data,
   [],
   ("When you").data ++ Char.ofNat 39 :: ("re done, tell me and I").data ++ Char.ofNat 39 :: ("ll start implementing.").data,
   []]

/-- The result of `generate`: the output lines, the "not mapped"
warnings (printed before generation, over the block ids sorted by
numeric key) and the "not found in source" errors (printed during
generation, in plan order). -/
structure GenResult where
  out : List Line
  warnings : List Line
  errors : List Line
deriving Repr

/-- `generate(blocks)` for a plan and removed set
(`reorganize.py` 256-301). -/
def generate (bs : RawBlocks) (plan : Plan) (removed : List Line) : GenResult :=
  let allMapped := (plan.map Prod.snd).flatten
  let warnings := ((bs.map Prod.fst).mergeSort idLE).filter
    (fun id => !allMapped.contains id && !removed.contains id)
  let (body, errors) := genSecs bs 1 plan
  ⟨genPreamble ++ body ++ genTail, warnings, errors⟩

/-- The whole migration pipeline of `main`: parse raw blocks, generate. -/
def migrate (ls : List Line) (plan : Plan) (removed : List Line) : GenResult :=
  generate (parseRaw ls) plan removed

/-! ### Reference scans used in the statements

These small state machines re-derive, directly from the document lines,
facts that the theorems compare against the parser / rewriter: the
per-question answer-marker counts, the (key, answer) pairs, and the
well-formedness conditions under which parser and rewriter agree. -/

/-- State for the marker-count scan: completed sections, whether a
section is open, the flushed counts of the open section, and the
current question (attached flag, markers seen). -/
structure MCState where
  secs : List (List Nat)
  hasSec : Bool
  curCounts : List Nat
  curQ : Option (Bool × Nat)

/-- Flush the current question's marker count (kept only if the
question was attached to a section). -/
def mcFlush (s : MCState) : MCState :=
  match s.curQ with
  | none => s
  | some (att, n) =>
    { s with curQ := none, curCounts := if att then s.curCounts ++ [n] else s.curCounts }

/-- One line of the marker-count scan: mirrors which lines
`parse_markdown` treats as section header, question header, or answer
marker, and counts the markers seen per question. -/
def mcStep (s : MCState) (l : Line) : MCState :=
  match sectionHdr? l with
  | some _ =>
    let s := mcFlush s
    { secs := s.secs ++ (if s.hasSec then [s.curCounts] else []),
      hasSec := true, curCounts := [], curQ := none }
  | none =>
  match questionHdrFull? l with
  | some _ =>
    let s := mcFlush s
    { s with curQ := some (s.hasSec, 0) }
  | none =>
  match s.curQ with
  | none => s
  | some (att, n) => if markerRE l then { s with curQ := some (att, n + 1) } else s

/-- Per-section, per-question counts of answer-marker lines occurring
between each question header and the next question/section header or
end of input. -/
def markerCounts (ls : List Line) : List (List Nat) :=
  let s := mcFlush (ls.foldl mcStep ⟨[], false, [], none⟩)
  s.secs ++ (if s.hasSec then [s.curCounts] else [])

/-- Abstraction of the parser state to the marker-count state: keep the
per-question answer counts; a question being collected owns one answer
slot that has not yet been appended. -/
def mcAbs (s : PState) : MCState :=
  ⟨s.secs.map (fun sec => sec.questions.map (fun q => q.answers.length)),
   s.curSec.isSome,
   s.curQs.map (fun q => q.answers.length),
   s.curQ.map (fun c => (c.attached, c.answers.length + (if s.collecting then 1 else 0)))⟩

/-- The `(key, answer)` pairs recorded in a parsed question, in order:
key `"<id>_<slot>"`, value the recorded answer string. -/
def qPairs (q : Question) : List (Line × Line) :=
  q.answers.enum.map (fun p => (keyOf q.qid p.1, p.2))

/-- All `(key, answer)` pairs of a parsed document, in document order. -/
def modelPairs (secs : List Sec) : List (Line × Line) :=
  ((secs.map (fun s => (s.questions.map qPairs).flatten))).flatten

/-- The answer map of the round-trip property: every key of the parsed
model mapped to exactly the answer recorded there. -/
def modelMap (secs : List Sec) : AMap := fun k => (modelPairs secs).lookup k

/-- The pairs a current (unflushed) question will contribute, if it is
attached to a section. -/
def curQPairs (c : CurQ) : List (Line × Line) :=
  if c.attached then c.answers.enum.map (fun p => (keyOf c.qid p.1, p.2)) else []

/-- All pairs already determined by a parser state. -/
def statePairs (s : PState) : List (Line × Line) :=
  modelPairs s.secs ++ (s.curQs.map qPairs).flatten ++
    (match s.curQ with
     | some c => curQPairs c
     | none => [])

/-- The scan state corresponding to a parser state. -/
def mpCq (s : PState) : Option (Bool × Line × Nat) :=
  s.curQ.map (fun c => (c.attached, c.qid, c.answers.length))

/-- Reachability invariant of the parser state: before any section
exists, no questions have been flushed and the current question (if
any) is unattached. -/
def pInv (s : PState) : Prop :=
  s.curSec = none → s.curQs = [] ∧ ∀ c, s.curQ = some c → c.attached = false

/-- The pair emitted when a pending slot of the pair scan closes:
nothing if the current question is unattached. -/
def mpEmit (att : Bool) (qid : Line) (idx : Nat) (buf : List Line) : List (Line × Line) :=
  if att then [(keyOf qid idx, joinTrim buf)] else []

/-- Direct scan producing the `(key, answer)` pairs that
`parse_markdown` records, mirroring its state machine: `hs` = a section
exists, `cq` = current question (attached, id, slots closed), `col` =
collecting, `buf` = the slot buffer. -/
def mpGo (hs : Bool) (cq : Option (Bool × Line × Nat)) (col : Bool) (buf : List Line) :
    List Line → List (Line × Line)
  | [] =>
    match cq with
    | none => []
    | some (att, qid, idx) => if col then mpEmit att qid idx buf else []
  | l :: rest =>
    match sectionHdr? l with
    | some _ =>
      match cq with
      | none => mpGo true none col buf rest
      | some (att, qid, idx) =>
        (if col then mpEmit att qid idx buf else []) ++ mpGo true none false [] rest
    | none =>
    match questionHdrFull? l with
    | some (qid, _) =>
      (match cq with
       | none => []
       | some (att, qid0, idx) => if col then mpEmit att qid0 idx buf else []) ++
      mpGo hs (some (hs, qid, 0)) false [] rest
    | none =>
    match cq with
    | none => mpGo hs none col buf rest
    | some (att, qid, idx) =>
      if markerRE l then
        if col then mpEmit att qid idx buf ++ mpGo hs (some (att, qid, idx + 1)) true [] rest
        else mpGo hs (some (att, qid, idx)) true buf rest
      else if col then
        if trimL l = ['-', '-', '-'] then
          mpEmit att qid idx buf ++ mpGo hs (some (att, qid, idx + 1)) false [] rest
        else if subPromptFull l then
          mpEmit att qid idx buf ++ mpGo hs (some (att, qid, idx + 1)) false [] rest
        else mpGo hs cq col (buf ++ [l]) rest
      else mpGo hs cq col buf rest

/-- The `(key, answer)` pairs of a document by direct scan. -/
def miniPairs (ls : List Line) : List (Line × Line) := mpGo false none false [] ls

/-- The `(key, old content)` pairs of the rewriter's slot segments. -/
def segPairs (ss : List Seg) : List (Line × Line) :=
  ss.filterMap (fun s => match s with
    | .slot _ (some k) c => some (k, joinTrim c)
    | _ => none)

/-- Well-formedness of a single line: none of the idioms on which the
parser's and the rewriter's boundary rules disagree. -/
def lineOK (l : Line) : Bool :=
  (!startsW ['#', '#', '#', ' '] l || (questionHdrFull? l).isSome) &&
  (!startsW ['#', '#', ' '] l || (sectionHdr? l).isSome) &&
  (!startsW ['-', '-', '-'] l || trimL l == ['-', '-', '-']) &&
  (!(trimL l == ['-', '-', '-']) || startsW ['-', '-', '-'] l) &&
  (!subPromptPrefix l || subPromptFull l) &&
  !tableLike l &&
  !startsW ['*', '*'] l

/-- Attachment scan: every answer-marker line must occur while a
question attached to a section is current (mirrors whether
`parse_markdown` would record the slot at all). -/
def attachedGo (hs : Bool) (cq : Option Bool) : List Line → Bool
  | [] => true
  | l :: rest =>
    if (sectionHdr? l).isSome then attachedGo true none rest
    else if (questionHdrFull? l).isSome then attachedGo hs (some hs) rest
    else if markerRE l then cq == some true && attachedGo hs cq rest
    else attachedGo hs cq rest

/-- All markers of the document fall inside attached questions. -/
def markersAttached (ls : List Line) : Bool := attachedGo false none ls

/-- The lines the rewriter emits for a slot whose stored answer is `v`
(already trimmed): the split answer if non-blank, then one blank line. -/
def nInsert (v : Line) : List Line :=
  (if v = [] then [] else splitLines v) ++ [[]]

/-- A slot is in normal form when its key is present and its old
content is exactly what the rewriter would emit for the recorded
(trimmed) answer. -/
def slotNormal : Seg → Bool
  | .plain _ => true
  | .slot _ k c => k.isSome && c == nInsert (joinTrim c)

/-- All slots of the document are in normal form. -/
def slotsNormal (ls : List Line) : Bool := (docSegs ls).all slotNormal

/-- The option (if any) `_process_body` derives from a single body line:
a bold line yields a default option, a plain `- (x) ...` line a
non-default one. -/
def optOf (l : Line) : Option QOption :=
  match boldOpt? l with
  | some (c, txt, extra) =>
    let t := trimL txt
    let e := trimL extra
    let t := if e.isEmpty then t else t ++ ' ' :: e
    some ⟨lowerAZ c, t, true⟩
  | none =>
    match plainOpt? l with
    | some (c, txt) => some ⟨lowerAZ c, txt, false⟩
    | none => none

/-- A body line that `_process_body` keeps as description text: neither
an option, nor a table row, nor blank after stripping. -/
def descLine (l : Line) : Bool :=
  (optOf l).isNone && !startsW ['|'] (trimL l) && !(trimL l).isEmpty

/-! ### Concrete documents, mappings and plans used in the examples -/

/-- A well-formed questionnaire whose slots are in normal form. -/
def wfDoc : List Line :=
  [("## 1. A").data, ("### 1.1 Q").data, ("Your answer:").data, ("hi").data, [],
   ("---").data, ("Your answers:").data, []]

/-- A document whose only slot's old content starts with a blank line. -/
def shiftDoc : List Line :=
  [("## 1. S").data, ("### 1.1 Q").data, ("Your answer:").data, [], ("hi").data]

/-- A small questionnaire text with one answer slot. -/
def crossText : Line :=
  joinL [("## 1. S").data, ("### 1.1 Q").data, ("Your answer:").data, ("old").data]

/-- A mapping whose stored answer is itself a boundary-looking line. -/
def crossAns : AMap :=
  fun k => if k = ("1.1_0").data then some (("**x").data) else none

/-- A mapping whose stored answer is an ordinary line. -/
def plainAns : AMap :=
  fun k => if k = ("1.1_0").data then some (("hi").data) else none

/-- A question with two bold option lines. -/
def twoBoldDoc : List Line :=
  [("## 1. S").data, ("### 1.1 Q").data, ("- **(a) x**").data, ("- **(b) y**").data]

/-- A body with one bold and one plain option line. -/
def oneBoldBody : List Line := [("- **(a) x**").data, ("- (b) y").data]

/-- A free-text line sitting inside an answer slot. -/
def inSlotDoc : List Line :=
  [("## 1. S").data, ("### 1.1 Q").data, ("Your answer:").data, ("hello").data]

/-- A one-block source whose id the plan lists in second position only. -/
def gapBs : RawBlocks := [(("1.2").data, ("T").data, ("b").data)]

/-- A plan whose first id is absent from `gapBs`. -/
def gapPlan : Plan := [(("S").data, [("9.9").data, ("1.2").data])]

/-- A one-block source with a clean one-line body. -/
def cleanBs : RawBlocks := [(("2.1").data, ("T").data, ("x").data)]

/-- The plan mapping `cleanBs` into one section. -/
def cleanPlan : Plan := [(("S").data, [("2.1").data])]

/-! ## Theorems -/

/-! ### Basic facts about lines, splitting and trimming -/

theorem splitLines_ne_nil (t : Line) : splitLines t ≠ [] := by
  induction t with
  | nil => simp [splitLines]
  | cons c rest ih =>
    by_cases h : c = '\n'
    · simp [splitLines, h]
    · simp only [splitLines, if_neg h]
      cases hr : splitLines rest with
      | nil => simp
      | cons l ls => simp

theorem joinL_nil : joinL [] = [] := rfl

theorem joinL_single (l : Line) : joinL [l] = l := by
  simp [joinL, List.intercalate]

theorem joinL_cons (l : Line) (ls : List Line) (h : ls ≠ []) :
    joinL (l :: ls) = l ++ '\n' :: joinL ls := by
  cases ls with
  | nil => exact absurd rfl h
  | cons x xs =>
    simp [joinL, List.intercalate, List.intersperse_cons_cons]

theorem splitLines_cons_eq (c : Char) (t : Line) (h : c ≠ '\n')
    (l : Line) (ls : List Line) (ht : splitLines t = l :: ls) :
    splitLines (c :: t) = (c :: l) :: ls := by
  simp only [splitLines, if_neg h, ht]

theorem splitLines_nl (t : Line) : splitLines ('\n' :: t) = [] :: splitLines t := by
  simp [splitLines]

theorem splitLines_noNL (l : Line) (h : '\n' ∉ l) : splitLines l = [l] := by
  induction l with
  | nil => rfl
  | cons c cs ih =>
    have hc : c ≠ '\n' := fun hcc => h (by simp [hcc])
    have hcs : '\n' ∉ cs := fun hm => h (List.mem_cons_of_mem _ hm)
    exact splitLines_cons_eq c cs hc cs [] (ih hcs)

theorem splitLines_append_nl (l : Line) (t : Line) (h : '\n' ∉ l) :
    splitLines (l ++ '\n' :: t) = l :: splitLines t := by
  induction l with
  | nil => simp [splitLines]
  | cons c cs ih =>
    have hc : c ≠ '\n' := fun hcc => h (by simp [hcc])
    have hcs : '\n' ∉ cs := fun hm => h (List.mem_cons_of_mem _ hm)
    have hstep : (c :: cs) ++ '\n' :: t = c :: (cs ++ '\n' :: t) := rfl
    rw [hstep, splitLines_cons_eq c _ hc cs (splitLines t) (ih hcs)]

theorem joinL_splitLines (t : Line) : joinL (splitLines t) = t := by
  induction t with
  | nil => rfl
  | cons c rest ih =>
    by_cases h : c = '\n'
    · subst h
      rw [splitLines_nl, joinL_cons _ _ (splitLines_ne_nil rest), ih]
      rfl
    · cases hr : splitLines rest with
      | nil => exact absurd hr (splitLines_ne_nil rest)
      | cons l ls =>
        rw [splitLines_cons_eq c rest h l ls hr]
        rw [hr] at ih
        cases ls with
        | nil =>
          rw [joinL_single] at ih ⊢
          simp [ih]
        | cons y ys =>
          rw [joinL_cons _ _ (by simp)] at ih
          rw [joinL_cons _ _ (by simp)]
          simp [ih]

theorem noNL_splitLines (t : Line) : ∀ l ∈ splitLines t, '\n' ∉ l := by
  induction t with
  | nil => simp [splitLines]
  | cons c rest ih =>
    by_cases h : c = '\n'
    · rw [h, splitLines_nl]
      intro l hl
      rw [List.mem_cons] at hl
      rcases hl with hl | hl
      · subst hl; simp
      · exact ih l hl
    · cases hr : splitLines rest with
      | nil => exact absurd hr (splitLines_ne_nil rest)
      | cons x xs =>
        rw [splitLines_cons_eq c rest h x xs hr]
        rw [hr] at ih
        intro l hl
        rw [List.mem_cons] at hl
        rcases hl with hl | hl
        · subst hl
          intro hmem
          rw [List.mem_cons] at hmem
          rcases hmem with hmem | hmem
          · exact h hmem.symm
          · exact ih x (by simp) hmem
        · exact ih l (by simp [hl])

theorem splitLines_joinL (ls : List Line) (hne : ls ≠ [])
    (hnl : ∀ l ∈ ls, '\n' ∉ l) : splitLines (joinL ls) = ls := by
  induction ls with
  | nil => exact absurd rfl hne
  | cons l rest ih =>
    cases rest with
    | nil => rw [joinL_single]; exact splitLines_noNL l (hnl l (by simp))
    | cons l2 rest2 =>
      rw [joinL_cons _ _ (by simp),
          splitLines_append_nl _ _ (hnl l (by simp)),
          ih (by simp) (fun x hx => hnl x (by simp [hx]))]

theorem dropWhile_eq_self_of_head (p : Char → Bool) (l : Line)
    (h : ∀ c, l.head? = some c → p c = false) : l.dropWhile p = l := by
  cases l with
  | nil => rfl
  | cons c cs => simp [List.dropWhile_cons, h c rfl]

theorem head?_dropWhile (p : Char → Bool) : ∀ (l : Line) (c : Char),
    (l.dropWhile p).head? = some c → p c = false := by
  intro l
  induction l with
  | nil => intro c h; simp at h
  | cons x xs ih =>
    intro c h
    by_cases hp : p x
    · rw [List.dropWhile_cons, if_pos hp] at h
      exact ih c h
    · rw [List.dropWhile_cons, if_neg hp] at h
      simp only [List.head?_cons, Option.some.injEq] at h
      rw [← h]
      simpa using hp

theorem getLast?_dropWhile (p : Char → Bool) : ∀ (l : Line),
    l.dropWhile p ≠ [] → (l.dropWhile p).getLast? = l.getLast? := by
  intro l
  induction l with
  | nil => intro h; simp at h
  | cons x xs ih =>
    intro h
    by_cases hp : p x
    · rw [List.dropWhile_cons, if_pos hp] at h ⊢
      have hxs : xs ≠ [] := by
        intro h0; rw [h0] at h; simp at h
      cases xs with
      | nil => exact absurd rfl hxs
      | cons y ys => rw [ih h, List.getLast?_cons_cons]
    · rw [List.dropWhile_cons, if_neg hp]

theorem trimL_idem (l : Line) : trimL (trimL l) = trimL l := by
  have h1 : (((l.dropWhile pySpace).reverse.dropWhile pySpace).reverse).dropWhile pySpace
      = ((l.dropWhile pySpace).reverse.dropWhile pySpace).reverse := by
    apply dropWhile_eq_self_of_head
    intro c hc
    rw [List.head?_reverse] at hc
    have hBne : (l.dropWhile pySpace).reverse.dropWhile pySpace ≠ [] := by
      intro h0; rw [h0] at hc; simp at hc
    rw [getLast?_dropWhile pySpace _ hBne, List.getLast?_reverse] at hc
    exact head?_dropWhile pySpace l c hc
  have h2 : ((l.dropWhile pySpace).reverse.dropWhile pySpace).dropWhile pySpace
      = (l.dropWhile pySpace).reverse.dropWhile pySpace := by
    apply dropWhile_eq_self_of_head
    intro c hc
    exact head?_dropWhile pySpace _ c hc
  show (((((l.dropWhile pySpace).reverse.dropWhile pySpace).reverse).dropWhile
      pySpace).reverse.dropWhile pySpace).reverse = _
  rw [h1, List.reverse_reverse, h2]
  rfl

/-! ### The rewriter is a slot-wise replacement (frame structure) -/

theorem segsLines_cons (s : Seg) (ss : List Seg) :
    segsLines (s :: ss) = segLines s ++ segsLines ss := by
  simp [segsLines]

theorem segsOut_cons (ans : AMap) (s : Seg) (ss : List Seg) :
    segsOut ans (s :: ss) = replaceSeg ans s ++ segsOut ans ss := by
  simp [segsOut]

/-- Lemma A: the slot decomposition loses nothing — flattening the
segments returns exactly the input lines. -/
theorem segsGo_lines : ∀ (ls : List Line) (q : Option Line) (i : Nat),
    segsLines (segsGo q i none ls) = ls ∧
    ∀ m k c, segsLines (segsGo q i (some (m, k, c)) ls) = m :: (c ++ ls) := by
  intro ls
  induction ls with
  | nil =>
    intro q i
    refine ⟨by simp [segsGo, segsLines], ?_⟩
    intro m k c
    simp [segsGo, segsLines, segLines]
  | cons l rest ih =>
    intro q i
    rcases hqi : stepQid q i l with ⟨q', i'⟩
    by_cases hm : markerRE l
    · constructor
      · simp only [segsGo, hqi, if_pos hm]
        rw [(ih q' (i' + 1)).2 l (q'.map (keyOf · i')) []]
        simp
      · intro m k c
        have hb : rBoundary l = true := by
          simp [rBoundary, hm]
        simp only [segsGo, hqi, if_pos hb, if_pos hm, segsLines_cons]
        rw [(ih q' (i' + 1)).2 l (q'.map (keyOf · i')) []]
        simp [segLines]
    · constructor
      · simp only [segsGo, hqi, if_neg hm, segsLines_cons]
        rw [(ih q' i').1]
        simp [segLines]
      · intro m k c
        by_cases hb : rBoundary l
        · simp only [segsGo, hqi, if_pos hb, if_neg hm, segsLines_cons]
          rw [(ih q' i').1]
          simp [segLines]
        · simp only [segsGo, if_neg hb]
          rw [(ih q i).2 m k (c ++ [l])]
          simp

/-- Lemma A at the top level. -/
theorem docSegs_lines (ls : List Line) : segsLines (docSegs ls) = ls :=
  (segsGo_lines ls none 0).1

/-- Lemma B: the rewriter emits exactly the slot decomposition with
every slot's old content replaced by the looked-up insertion. -/
theorem saveGo_eq_segsOut (ans : AMap) : ∀ (ls : List Line) (q : Option Line) (i : Nat),
    saveGo ans q i none ls = segsOut ans (segsGo q i none ls) ∧
    ∀ m k c, segsOut ans (segsGo q i (some (m, k, c)) ls) =
      m :: saveGo ans q i (some (insOfKey ans k)) ls := by
  intro ls
  induction ls with
  | nil =>
    intro q i
    refine ⟨by simp [saveGo, segsGo, segsOut], ?_⟩
    intro m k c
    simp [saveGo, segsGo, segsOut, replaceSeg]
  | cons l rest ih =>
    intro q i
    rcases hqi : stepQid q i l with ⟨q', i'⟩
    by_cases hm : markerRE l
    · have hb : rBoundary l = true := by simp [rBoundary, hm]
      constructor
      · simp only [saveGo, segsGo, hqi, if_pos hm]
        rw [(ih q' (i' + 1)).2 l (q'.map (keyOf · i')) []]
        rfl
      · intro m k c
        simp only [saveGo, segsGo, hqi, if_pos hb, if_pos hm, segsOut_cons]
        rw [(ih q' (i' + 1)).2 l (q'.map (keyOf · i')) []]
        simp [replaceSeg, slotIns]
    · constructor
      · simp only [saveGo, segsGo, hqi, if_neg hm, segsOut_cons]
        rw [(ih q' i').1]
        simp [replaceSeg]
      · intro m k c
        by_cases hb : rBoundary l
        · simp only [saveGo, segsGo, hqi, if_pos hb, if_neg hm, segsOut_cons]
          rw [(ih q' i').1]
          simp [replaceSeg, segsOut_cons]
        · simp only [saveGo, segsGo, if_neg hb]
          rw [(ih q i).2 m k (c ++ [l])]

/-- Lemma B at the top level. -/
theorem saveLines_eq_segsOut (ans : AMap) (ls : List Line) :
    saveLines ans ls = segsOut ans (docSegs ls) :=
  (saveGo_eq_segsOut ans ls none 0).1

/-! ### Rescanning rewritten output (towards idempotence) -/

theorem rBoundary_nil : rBoundary [] = false := by decide

theorem insOfKey_noNL (ans : AMap) (k : Option Line) :
    ∀ l ∈ insOfKey ans k, '\n' ∉ l := by
  cases k with
  | none => simp [insOfKey]
  | some key =>
    cases hv : ans key with
    | none => simp [insOfKey, hv]
    | some v =>
      by_cases ht : trimL v = []
      · simp [insOfKey, hv, ht]
      · simp only [insOfKey, hv, if_neg ht]
        exact noNL_splitLines v

theorem insOfKey_nonboundary (ans : AMap)
    (h : ∀ k v, ans k = some v → ∀ l ∈ splitLines v, rBoundary l = false)
    (k : Option Line) : ∀ l ∈ insOfKey ans k, rBoundary l = false := by
  cases k with
  | none => simp [insOfKey]
  | some key =>
    cases hv : ans key with
    | none => simp [insOfKey, hv]
    | some v =>
      by_cases ht : trimL v = []
      · simp [insOfKey, hv, ht]
      · simp only [insOfKey, hv, if_neg ht]
        exact h key v hv

/-- Skipping a run of non-boundary lines only accumulates them into the
pending slot content. -/
theorem segsGo_skip (xs : List Line) (hx : ∀ l ∈ xs, rBoundary l = false) :
    ∀ (rest : List Line) (q : Option Line) (i : Nat) (m : Line) (k : Option Line) (c : List Line),
    segsGo q i (some (m, k, c)) (xs ++ rest) = segsGo q i (some (m, k, c ++ xs)) rest := by
  induction xs with
  | nil => intro rest q i m k c; simp
  | cons x xs ih =>
    intro rest q i m k c
    have hxb : rBoundary x = false := hx x (by simp)
    have hxs : ∀ l ∈ xs, rBoundary l = false := fun l hl => hx l (by simp [hl])
    show segsGo q i (some (m, k, c)) (x :: (xs ++ rest)) = _
    simp only [segsGo, hxb, Bool.false_eq_true, if_false]
    rw [ih hxs rest q i m k (c ++ [x])]
    simp

theorem insBlank_nonboundary (ans : AMap)
    (h : ∀ k v, ans k = some v → ∀ l ∈ splitLines v, rBoundary l = false)
    (k : Option Line) : ∀ l ∈ insOfKey ans k ++ [[]], rBoundary l = false := by
  intro l hl
  rw [List.mem_append] at hl
  rcases hl with hl | hl
  · exact insOfKey_nonboundary ans h k l hl
  · simp only [List.mem_singleton] at hl
    rw [hl]
    exact rBoundary_nil

/-- Lemma C: scanning the rewriter's output yields the same segments
with each slot's content replaced by what was inserted, provided no
line of any supplied answer is a boundary line. -/
theorem segsGo_saveGo (ans : AMap)
    (h : ∀ k v, ans k = some v → ∀ l ∈ splitLines v, rBoundary l = false) :
    ∀ (ls : List Line) (q : Option Line) (i : Nat),
    segsGo q i none (saveGo ans q i none ls) = (segsGo q i none ls).map (reSlot ans) ∧
    ∀ m k c, segsGo q i (some (m, k, [])) (saveGo ans q i (some (insOfKey ans k)) ls) =
      (segsGo q i (some (m, k, c)) ls).map (reSlot ans) := by
  intro ls
  induction ls with
  | nil =>
    intro q i
    constructor
    · simp [saveGo, segsGo]
    · intro m k c
      show segsGo q i (some (m, k, [])) (insOfKey ans k ++ [[]]) = _
      rw [← List.append_nil (insOfKey ans k ++ [[]]),
          segsGo_skip (insOfKey ans k ++ [[]]) (insBlank_nonboundary ans h k) [] q i m k []]
      simp [segsGo, reSlot]
  | cons l rest ih =>
    intro q i
    rcases hqi : stepQid q i l with ⟨q', i'⟩
    constructor
    · by_cases hm : markerRE l
      · have hsave : saveGo ans q i none (l :: rest) =
            l :: saveGo ans q' (i' + 1) (some (slotIns ans q' i')) rest := by
          simp only [saveGo, hqi, if_pos hm]
        rw [hsave]
        have houter : segsGo q i none
              (l :: saveGo ans q' (i' + 1) (some (slotIns ans q' i')) rest) =
            segsGo q' (i' + 1) (some (l, q'.map (keyOf · i'), []))
              (saveGo ans q' (i' + 1) (some (slotIns ans q' i')) rest) := by
          simp only [segsGo, hqi, if_pos hm]
        have hrhs : segsGo q i none (l :: rest) =
            segsGo q' (i' + 1) (some (l, q'.map (keyOf · i'), [])) rest := by
          simp only [segsGo, hqi, if_pos hm]
        rw [houter, hrhs,
            show slotIns ans q' i' = insOfKey ans (q'.map (keyOf · i')) from rfl]
        exact (ih q' (i' + 1)).2 l (q'.map (keyOf · i')) []
      · have hsave : saveGo ans q i none (l :: rest) =
            l :: saveGo ans q' i' none rest := by
          simp only [saveGo, hqi, if_neg hm]
        rw [hsave]
        have houter : segsGo q i none (l :: saveGo ans q' i' none rest) =
            Seg.plain l :: segsGo q' i' none (saveGo ans q' i' none rest) := by
          simp only [segsGo, hqi, if_neg hm]
        have hrhs : segsGo q i none (l :: rest) =
            Seg.plain l :: segsGo q' i' none rest := by
          simp only [segsGo, hqi, if_neg hm]
        rw [houter, hrhs, List.map_cons, (ih q' i').1]
        rfl
    · intro m k c
      by_cases hb : rBoundary l
      · by_cases hm : markerRE l
        · have hsave : saveGo ans q i (some (insOfKey ans k)) (l :: rest) =
              (insOfKey ans k ++ [[]]) ++
                l :: saveGo ans q' (i' + 1) (some (slotIns ans q' i')) rest := by
            simp only [saveGo, hqi, if_pos hb, if_pos hm]
          rw [hsave,
              segsGo_skip (insOfKey ans k ++ [[]]) (insBlank_nonboundary ans h k) _ q i m k []]
          have houter : segsGo q i (some (m, k, [] ++ (insOfKey ans k ++ [[]])))
                (l :: saveGo ans q' (i' + 1) (some (slotIns ans q' i')) rest) =
              Seg.slot m k (insOfKey ans k ++ [[]]) ::
                segsGo q' (i' + 1) (some (l, q'.map (keyOf · i'), []))
                  (saveGo ans q' (i' + 1) (some (slotIns ans q' i')) rest) := by
            simp only [segsGo, hqi, if_pos hb, if_pos hm, List.nil_append]
          have hrhs : segsGo q i (some (m, k, c)) (l :: rest) =
              Seg.slot m k c ::
                segsGo q' (i' + 1) (some (l, q'.map (keyOf · i'), [])) rest := by
            simp only [segsGo, hqi, if_pos hb, if_pos hm]
          rw [houter, hrhs, List.map_cons,
              show slotIns ans q' i' = insOfKey ans (q'.map (keyOf · i')) from rfl,
              (ih q' (i' + 1)).2 l (q'.map (keyOf · i')) []]
          rfl
        · have hsave : saveGo ans q i (some (insOfKey ans k)) (l :: rest) =
              (insOfKey ans k ++ [[]]) ++ l :: saveGo ans q' i' none rest := by
            simp only [saveGo, hqi, if_pos hb, if_neg hm]
          rw [hsave,
              segsGo_skip (insOfKey ans k ++ [[]]) (insBlank_nonboundary ans h k) _ q i m k []]
          have houter : segsGo q i (some (m, k, [] ++ (insOfKey ans k ++ [[]])))
                (l :: saveGo ans q' i' none rest) =
              Seg.slot m k (insOfKey ans k ++ [[]]) :: Seg.plain l ::
                segsGo q' i' none (saveGo ans q' i' none rest) := by
            simp only [segsGo, hqi, if_pos hb, if_neg hm, List.nil_append]
          have hrhs : segsGo q i (some (m, k, c)) (l :: rest) =
              Seg.slot m k c :: Seg.plain l :: segsGo q' i' none rest := by
            simp only [segsGo, hqi, if_pos hb, if_neg hm]
          rw [houter, hrhs, List.map_cons, List.map_cons, (ih q' i').1]
          rfl
      · have hsave : saveGo ans q i (some (insOfKey ans k)) (l :: rest) =
            saveGo ans q i (some (insOfKey ans k)) rest := by
          simp only [saveGo, if_neg hb]
        have hrhs : segsGo q i (some (m, k, c)) (l :: rest) =
            segsGo q i (some (m, k, c ++ [l])) rest := by
          simp only [segsGo, if_neg hb]
        rw [hsave, hrhs]
        exact (ih q i).2 m k (c ++ [l])

/-- `replaceSeg` does not look at a slot's content, so rewriting a
rewritten segment changes nothing. -/
theorem replaceSeg_reSlot (ans : AMap) (s : Seg) :
    replaceSeg ans (reSlot ans s) = replaceSeg ans s := by
  cases s <;> rfl

theorem segsOut_map_reSlot (ans : AMap) (ss : List Seg) :
    segsOut ans (ss.map (reSlot ans)) = segsOut ans ss := by
  simp only [segsOut, List.map_map]
  congr 1
  exact List.map_congr_left (fun s _ => replaceSeg_reSlot ans s)

/-- Rewriting is idempotent at the line level when no supplied answer
contains a boundary-looking line. -/
theorem saveLines_idem (ans : AMap)
    (h : ∀ k v, ans k = some v → ∀ l ∈ splitLines v, rBoundary l = false)
    (ls : List Line) : saveLines ans (saveLines ans ls) = saveLines ans ls := by
  rw [saveLines_eq_segsOut ans (saveLines ans ls),
      show docSegs (saveLines ans ls) = (docSegs ls).map (reSlot ans) from
        (segsGo_saveGo ans h ls none 0).1,
      segsOut_map_reSlot, ← saveLines_eq_segsOut]

theorem saveGo_noNL (ans : AMap) : ∀ (ls : List Line)
    (q : Option Line) (i : Nat) (pend : Option (List Line)),
    (∀ l ∈ ls, '\n' ∉ l) →
    (∀ ins, pend = some ins → ∀ l ∈ ins, '\n' ∉ l) →
    ∀ l ∈ saveGo ans q i pend ls, '\n' ∉ l := by
  intro ls
  induction ls with
  | nil =>
    intro q i pend _ hpend l hl
    cases pend with
    | none => simp [saveGo] at hl
    | some ins =>
      simp only [saveGo] at hl
      rw [List.mem_append] at hl
      rcases hl with hl | hl
      · exact hpend ins rfl l hl
      · simp only [List.mem_singleton] at hl
        rw [hl]; simp
  | cons x rest ih =>
    intro q i pend hls hpend l hl
    rcases hqi : stepQid q i x with ⟨q', i'⟩
    have hx : '\n' ∉ x := hls x (by simp)
    have hrest : ∀ l ∈ rest, '\n' ∉ l := fun l hl => hls l (by simp [hl])
    have hins : ∀ k, ∀ l ∈ insOfKey ans k, '\n' ∉ l := insOfKey_noNL ans
    cases pend with
    | none =>
      by_cases hm : markerRE x
      · rw [show saveGo ans q i none (x :: rest) =
              x :: saveGo ans q' (i' + 1) (some (slotIns ans q' i')) rest by
            simp only [saveGo, hqi, if_pos hm]] at hl
        rw [List.mem_cons] at hl
        rcases hl with hl | hl
        · rw [hl]; exact hx
        · exact ih q' (i' + 1) _ hrest
            (fun ins hi => by
              rw [show slotIns ans q' i' = insOfKey ans (q'.map (keyOf · i')) from rfl] at hi
              cases hi
              exact hins _) l hl
      · rw [show saveGo ans q i none (x :: rest) = x :: saveGo ans q' i' none rest by
            simp only [saveGo, hqi, if_neg hm]] at hl
        rw [List.mem_cons] at hl
        rcases hl with hl | hl
        · rw [hl]; exact hx
        · exact ih q' i' none hrest (by simp) l hl
    | some ins =>
      have hinsp : ∀ l ∈ ins, '\n' ∉ l := hpend ins rfl
      by_cases hb : rBoundary x
      · by_cases hm : markerRE x
        · rw [show saveGo ans q i (some ins) (x :: rest) =
                ins ++ [[]] ++ x :: saveGo ans q' (i' + 1) (some (slotIns ans q' i')) rest by
              simp only [saveGo, hqi, if_pos hb, if_pos hm]] at hl
          rw [List.mem_append, List.mem_append] at hl
          rcases hl with (hl | hl) | hl
          · exact hinsp l hl
          · simp only [List.mem_singleton] at hl; rw [hl]; simp
          · rw [List.mem_cons] at hl
            rcases hl with hl | hl
            · rw [hl]; exact hx
            · exact ih q' (i' + 1) _ hrest
                (fun ins2 hi => by
                  rw [show slotIns ans q' i' = insOfKey ans (q'.map (keyOf · i')) from rfl] at hi
                  cases hi
                  exact hins _) l hl
        · rw [show saveGo ans q i (some ins) (x :: rest) =
                ins ++ [[]] ++ x :: saveGo ans q' i' none rest by
              simp only [saveGo, hqi, if_pos hb, if_neg hm]] at hl
          rw [List.mem_append, List.mem_append] at hl
          rcases hl with (hl | hl) | hl
          · exact hinsp l hl
          · simp only [List.mem_singleton] at hl; rw [hl]; simp
          · rw [List.mem_cons] at hl
            rcases hl with hl | hl
            · rw [hl]; exact hx
            · exact ih q' i' none hrest (by simp) l hl
      · rw [show saveGo ans q i (some ins) (x :: rest) =
              saveGo ans q i (some ins) rest by
            simp only [saveGo, if_neg hb]] at hl
        exact ih q i (some ins) hrest hpend l hl

theorem saveLines_ne_nil (ans : AMap) (ls : List Line) (h : ls ≠ []) :
    saveLines ans ls ≠ [] := by
  cases ls with
  | nil => exact absurd rfl h
  | cons l rest =>
    show saveGo ans none 0 none (l :: rest) ≠ []
    rcases hqi : stepQid none 0 l with ⟨q', i'⟩
    by_cases hm : markerRE l
    · rw [show saveGo ans none 0 none (l :: rest) =
          l :: saveGo ans q' (i' + 1) (some (slotIns ans q' i')) rest by
        simp only [saveGo, hqi, if_pos hm]]
      simp
    · rw [show saveGo ans none 0 none (l :: rest) = l :: saveGo ans q' i' none rest by
        simp only [saveGo, hqi, if_neg hm]]
      simp

/-- Rewriting is idempotent on whole texts when no supplied answer
contains a boundary-looking line. -/
theorem rewriteText_idem (ans : AMap)
    (h : ∀ k v, ans k = some v → ∀ l ∈ splitLines v, rBoundary l = false)
    (t : Line) : rewriteText ans (rewriteText ans t) = rewriteText ans t := by
  show joinL (saveLines ans (splitLines (joinL (saveLines ans (splitLines t))))) = _
  rw [splitLines_joinL (saveLines ans (splitLines t))
        (saveLines_ne_nil ans _ (splitLines_ne_nil t))
        (saveGo_noNL ans (splitLines t) none 0 none (noNL_splitLines t) (by simp)),
      saveLines_idem ans h]
  rfl

/-! ### Boundary predicates of parser and rewriter -/

theorem secHdr_startsW (l : Line) (h : (sectionHdr? l).isSome) :
    startsW ['#', '#', ' '] l = true := by
  unfold sectionHdr? at h
  unfold startsW
  cases hd : dropPref ['#', '#', ' '] l with
  | none => rw [hd] at h; simp at h
  | some r => simp

theorem qHdr_startsW (l : Line) (h : (questionHdrFull? l).isSome) :
    startsW ['#', '#', '#', ' '] l = true := by
  unfold questionHdrFull? at h
  unfold startsW
  cases hd : dropPref ['#', '#', '#', ' '] l with
  | none => rw [hd] at h; simp at h
  | some r => simp

theorem subPromptFull_start (l : Line) (h : subPromptFull l = true) :
    subPromptPrefix l = true := by
  unfold subPromptFull at h
  unfold subPromptPrefix
  split at h
  · rw [Bool.and_eq_true] at h
    exact h.1
  · simp at h

theorem lineOK_parts (l : Line) (h : lineOK l = true) :
    (startsW ['#', '#', '#', ' '] l = true → (questionHdrFull? l).isSome) ∧
    (startsW ['#', '#', ' '] l = true → (sectionHdr? l).isSome) ∧
    (startsW ['-', '-', '-'] l = true → trimL l = ['-', '-', '-']) ∧
    ((trimL l == ['-', '-', '-']) = true → startsW ['-', '-', '-'] l = true) ∧
    (subPromptPrefix l = true → subPromptFull l = true) ∧
    tableLike l = false ∧
    startsW ['*', '*'] l = false := by
  unfold lineOK at h
  simp only [Bool.and_eq_true, Bool.or_eq_true, Bool.not_eq_true'] at h
  obtain ⟨⟨⟨⟨⟨⟨h1, h2⟩, h3⟩, h4⟩, h5⟩, h6⟩, h7⟩ := h
  refine ⟨?_, ?_, ?_, ?_, ?_, h6, h7⟩
  · intro hs
    rcases h1 with h1 | h1
    · rw [hs] at h1; cases h1
    · exact h1
  · intro hs
    rcases h2 with h2 | h2
    · rw [hs] at h2; cases h2
    · exact h2
  · intro hs
    rcases h3 with h3 | h3
    · rw [hs] at h3; cases h3
    · simpa using h3
  · intro hd
    rcases h4 with h4 | h4
    · rw [hd] at h4; cases h4
    · exact h4
  · intro hs
    rcases h5 with h5 | h5
    · rw [hs] at h5; cases h5
    · exact h5

/-- Under `lineOK` the parser's and the rewriter's slot boundary
predicates coincide. -/
theorem boundary_agree (l : Line) (h : lineOK l = true) :
    pBoundary l = rBoundary l := by
  obtain ⟨p1, p2, p3, p4, p5, p6, p7⟩ := lineOK_parts l h
  cases hpb : pBoundary l with
  | true =>
    have hr : rBoundary l = true := by
      simp only [pBoundary, Bool.or_eq_true] at hpb
      simp only [rBoundary, Bool.or_eq_true]
      rcases hpb with (((hs | hq) | hm) | hd) | hf
      · simp [secHdr_startsW l hs]
      · simp [qHdr_startsW l hq]
      · simp [hm]
      · simp [p4 hd]
      · simp [subPromptFull_start l hf]
    rw [hr]
  | false =>
    cases hrb : rBoundary l with
    | false => rfl
    | true =>
      exfalso
      have hp : pBoundary l = true := by
        simp only [rBoundary, Bool.or_eq_true] at hrb
        simp only [pBoundary, Bool.or_eq_true]
        rcases hrb with (((((hs1 | hs2) | hs3) | hs4) | hs5) | hs6) | hs7
        · simp [p1 hs1]
        · simp [p2 hs2]
        · simp [p3 hs3]
        · simp [p5 hs4]
        · simp [hs5]
        · simp [p6] at hs6
        · simp [p7] at hs7
      rw [hpb] at hp
      cases hp

/-! ### The answer-count simulation (parser vs. marker-count scan) -/

theorem flushQ_secs (s : PState) : (flushQ s).secs = s.secs := by
  cases hc : s.curQ <;> simp [flushQ, hc]

theorem flushQ_curSec (s : PState) : (flushQ s).curSec = s.curSec := by
  cases hc : s.curQ <;> simp [flushQ, hc]

theorem mcFlush_secs (m : MCState) : (mcFlush m).secs = m.secs := by
  cases hm : m.curQ with
  | none => simp [mcFlush, hm]
  | some p => rcases p with ⟨att, n⟩; simp [mcFlush, hm]

theorem mcFlush_hasSec (m : MCState) : (mcFlush m).hasSec = m.hasSec := by
  cases hm : m.curQ with
  | none => simp [mcFlush, hm]
  | some p => rcases p with ⟨att, n⟩; simp [mcFlush, hm]

theorem mcAbs_flushQ (s : PState) : mcAbs (flushQ s) = mcFlush (mcAbs s) := by
  cases hc : s.curQ with
  | none => simp [flushQ, mcFlush, mcAbs, hc]
  | some c =>
    cases hatt : c.attached <;> cases hcol : s.collecting <;>
      simp [flushQ, finalQ, mcFlush, mcAbs, hc, hatt, hcol]

/-- The per-question answer counts extracted from the parser state
after a final flush. -/
theorem mcExtract (s : PState) :
    (closedSecs (flushQ s)).map (fun sec => sec.questions.map (fun q => q.answers.length)) =
      (mcFlush (mcAbs s)).secs ++
        (if (mcFlush (mcAbs s)).hasSec then [(mcFlush (mcAbs s)).curCounts] else []) := by
  have hcounts : (flushQ s).curQs.map (fun q => q.answers.length) =
      (mcFlush (mcAbs s)).curCounts := by
    have := congrArg MCState.curCounts (mcAbs_flushQ s)
    simpa [mcAbs] using this
  rw [mcFlush_secs, mcFlush_hasSec]
  show (((flushQ s).secs ++ _).map _) = _
  rw [List.map_append, flushQ_secs, flushQ_curSec]
  have habsSecs : (mcAbs s).secs =
      s.secs.map (fun sec => sec.questions.map (fun q => q.answers.length)) := rfl
  have habsHas : (mcAbs s).hasSec = s.curSec.isSome := rfl
  rw [habsSecs, habsHas]
  cases hcs : s.curSec with
  | none => simp
  | some nt =>
    rcases nt with ⟨n, t⟩
    rw [← hcounts]
    simp

theorem mcStep_comm (s : PState) (l : Line) : mcAbs (pstep s l) = mcStep (mcAbs s) l := by
  cases hsec : sectionHdr? l with
  | some nt =>
    rcases nt with ⟨n, t⟩
    simp only [pstep, mcStep, hsec]
    simp only [mcAbs, Option.isSome_some, List.map_nil, Option.map_none, if_true]
    rw [mcExtract s]
    rfl
  | none =>
    cases hq : questionHdrFull? l with
    | some qt =>
      rcases qt with ⟨qid, t⟩
      simp only [pstep, mcStep, hsec, hq]
      simp only [mcAbs, Option.map_some]
      rw [flushQ_secs, flushQ_curSec]
      have h2 := mcAbs_flushQ s
      have hcts : (flushQ s).curQs.map (fun q => q.answers.length) =
          (mcFlush (mcAbs s)).curCounts := by
        have := congrArg MCState.curCounts h2
        simpa [mcAbs] using this
      rw [hcts, mcFlush_secs, mcFlush_hasSec]
      rfl
    | none =>
      cases hcq : s.curQ with
      | none =>
        simp only [pstep, mcStep, hsec, hq, hcq]
        have : (mcAbs s).curQ = none := by simp [mcAbs, hcq]
        rw [this]
      | some c =>
        have habs : (mcAbs s).curQ =
            some (c.attached, c.answers.length + (if s.collecting then 1 else 0)) := by
          simp [mcAbs, hcq]
        by_cases hm : markerRE l
        · cases hcol : s.collecting
          · simp only [pstep, mcStep, hsec, hq, hcq, habs, if_pos hm, hcol,
              Bool.false_eq_true, if_false]
            simp [mcAbs, hcq, hcol]
          · simp only [pstep, mcStep, hsec, hq, hcq, habs, if_pos hm, hcol, if_true]
            simp [mcAbs, hcq, hcol, Nat.add_assoc]
        · cases hcol : s.collecting
          · simp only [pstep, mcStep, hsec, hq, hcq, habs, if_neg hm, hcol,
              Bool.false_eq_true, if_false]
            simp [mcAbs, hcq, hcol]
          · by_cases hd : trimL l = ['-', '-', '-']
            · simp only [pstep, mcStep, hsec, hq, hcq, habs, if_neg hm, hcol, if_true,
                if_pos hd]
              simp [mcAbs, hcq, hcol]
            · by_cases hf : subPromptFull l
              · simp only [pstep, mcStep, hsec, hq, hcq, habs, if_neg hm, hcol, if_true,
                  if_neg hd, if_pos hf]
                simp [mcAbs, hcq, hcol]
              · simp only [pstep, mcStep, hsec, hq, hcq, habs, if_neg hm, hcol, if_true,
                  if_neg hd, if_neg hf]
                simp [mcAbs, hcq, hcol]

/-! ### The pair simulation (parser vs. key/answer scan) -/

theorem enum_append_singleton {α : Type} (xs : List α) (a : α) :
    (xs ++ [a]).enum = xs.enum ++ [(xs.length, a)] := by
  rw [List.enum_append]; rfl

theorem qPairs_finalQ (s : PState) (c : CurQ) :
    qPairs (finalQ s c) =
      c.answers.enum.map (fun p => (keyOf c.qid p.1, p.2)) ++
        (if s.collecting then [(keyOf c.qid c.answers.length, joinTrim s.ansBuf)] else []) := by
  cases hcol : s.collecting
  · simp [qPairs, finalQ, hcol]
  · simp only [qPairs, finalQ, hcol, if_true, enum_append_singleton, List.map_append]
    rfl

theorem flushQ_curQs (s : PState) :
    (flushQ s).curQs = s.curQs ++
      (match s.curQ with
       | some c => if c.attached then [finalQ s c] else []
       | none => []) := by
  cases hc : s.curQ with
  | none => simp [flushQ, hc]
  | some c =>
    cases hatt : c.attached <;> simp [flushQ, hc, hatt]

theorem modelPairs_append_sec (xs : List Sec) (n : Nat) (t : Line) (qs : List Question) :
    modelPairs (xs ++ [⟨n, t, qs⟩]) = modelPairs xs ++ (qs.map qPairs).flatten := by
  simp [modelPairs]

/-- Extraction: the pairs of the fully flushed document state are the
state's pairs plus the pending slot's pair (when one is collecting). -/
theorem statePairs_extract (s : PState) (hinv : pInv s) :
    modelPairs (closedSecs (flushQ s)) =
      statePairs s ++
        (match mpCq s with
         | none => []
         | some (att, qid, idx) =>
           if s.collecting then mpEmit att qid idx s.ansBuf else []) := by
  cases hcs : s.curSec with
  | none =>
    obtain ⟨hqs, hatt⟩ := hinv hcs
    have h1 : closedSecs (flushQ s) = s.secs := by
      simp [closedSecs, flushQ_secs, flushQ_curSec, hcs]
    rw [h1]
    cases hc : s.curQ with
    | none => simp [statePairs, mpCq, hc, hqs, modelPairs]
    | some c =>
      have ha : c.attached = false := hatt c hc
      simp [statePairs, mpCq, hc, hqs, curQPairs, ha, mpEmit, modelPairs]
  | some nt =>
    rcases nt with ⟨n, t⟩
    have h1 : closedSecs (flushQ s) = s.secs ++ [⟨n, t, (flushQ s).curQs⟩] := by
      simp [closedSecs, flushQ_secs, flushQ_curSec, hcs]
    rw [h1, modelPairs_append_sec, flushQ_curQs]
    cases hc : s.curQ with
    | none => simp [statePairs, mpCq, hc]
    | some c =>
      cases hatt : c.attached
      · simp [statePairs, mpCq, hc, hatt, curQPairs, mpEmit]
      · cases hcol : s.collecting <;>
          simp [statePairs, mpCq, hc, hatt, hcol, curQPairs, mpEmit, qPairs_finalQ]

theorem pstep_pInv (s : PState) (l : Line) (hinv : pInv s) : pInv (pstep s l) := by
  cases hsec : sectionHdr? l with
  | some nt =>
    rcases nt with ⟨n, t⟩
    intro hcs
    simp only [pstep, hsec] at hcs
    simp at hcs
  | none =>
    cases hq : questionHdrFull? l with
    | some qt =>
      rcases qt with ⟨qid, t⟩
      intro hcs
      simp only [pstep, hsec, hq] at hcs ⊢
      rw [flushQ_curSec] at hcs
      obtain ⟨hqs, hatt⟩ := hinv hcs
      constructor
      · rw [flushQ_curQs, hqs]
        cases hc : s.curQ with
        | none => simp
        | some c => simp [hatt c hc]
      · intro c hc
        simp only [Option.some.injEq] at hc
        rw [← hc]
        simp [flushQ_curSec, hcs]
    | none =>
      cases hcq : s.curQ with
      | none =>
        simp only [pstep, hsec, hq, hcq]
        exact hinv
      | some c =>
        intro hcs
        by_cases hm : markerRE l
        · cases hcol : s.collecting
          · simp only [pstep, hsec, hq, hcq, if_pos hm, hcol, Bool.false_eq_true,
              if_false] at hcs ⊢
            obtain ⟨hqs, hatt⟩ := hinv hcs
            refine ⟨hqs, ?_⟩
            intro c2 hc2
            simp only [Option.some.injEq] at hc2
            rw [← hc2]
            exact hatt c hcq
          · simp only [pstep, hsec, hq, hcq, if_pos hm, hcol, if_true] at hcs ⊢
            obtain ⟨hqs, hatt⟩ := hinv hcs
            refine ⟨hqs, ?_⟩
            intro c2 hc2
            simp only [Option.some.injEq] at hc2
            rw [← hc2]
            exact hatt c hcq
        · by_cases hcol : s.collecting
          · by_cases hd : trimL l = ['-', '-', '-']
            · simp only [pstep, hsec, hq, hcq, if_neg hm, hcol, if_true, if_pos hd] at hcs ⊢
              obtain ⟨hqs, hatt⟩ := hinv hcs
              refine ⟨hqs, ?_⟩
              intro c2 hc2
              simp only [Option.some.injEq] at hc2
              rw [← hc2]
              exact hatt c hcq
            · by_cases hf : subPromptFull l
              · simp only [pstep, hsec, hq, hcq, if_neg hm, hcol, if_true, if_neg hd,
                  if_pos hf] at hcs ⊢
                obtain ⟨hqs, hatt⟩ := hinv hcs
                refine ⟨hqs, ?_⟩
                intro c2 hc2
                simp only [Option.some.injEq] at hc2
                rw [← hc2]
                exact hatt c hcq
              · simp only [pstep, hsec, hq, hcq, if_neg hm, hcol, if_true, if_neg hd,
                  if_neg hf] at hcs ⊢
                obtain ⟨hqs, hatt⟩ := hinv hcs
                refine ⟨hqs, ?_⟩
                intro c2 hc2
                simp only [Option.some.injEq] at hc2
                rw [← hc2]
                exact hatt c hcq
          · simp only [pstep, hsec, hq, hcq, if_neg hm, hcol, Bool.false_eq_true,
              if_false] at hcs ⊢
            obtain ⟨hqs, hatt⟩ := hinv hcs
            refine ⟨hqs, ?_⟩
            intro c2 hc2
            simp only [Option.some.injEq] at hc2
            rw [← hc2]
            exact hatt c hcq

/-- The pairs recorded by the parser are those produced by the direct
key/answer scan, from any invariant-respecting state. -/
theorem mpGo_sim : ∀ (ls : List Line) (s : PState), pInv s →
    modelPairs (closedSecs (flushQ (ls.foldl pstep s))) =
      statePairs s ++ mpGo s.curSec.isSome (mpCq s) s.collecting s.ansBuf ls := by
  intro ls
  induction ls with
  | nil =>
    intro s hinv
    rw [List.foldl_nil, statePairs_extract s hinv]
    rfl
  | cons l rest ih =>
    intro s hinv
    rw [List.foldl_cons, ih (pstep s l) (pstep_pInv s l hinv)]
    cases hsec : sectionHdr? l with
    | some nt =>
      rcases nt with ⟨n, t⟩
      have hnew : pstep s l = { flushQ s with
          secs := closedSecs (flushQ s),
          curSec := some (n, trimL t),
          curQs := [],
          curQ := none } := by
        simp only [pstep, hsec]
      have hsp : statePairs (pstep s l) = modelPairs (closedSecs (flushQ s)) := by
        rw [hnew]; simp [statePairs]
      rw [hsp, statePairs_extract s hinv]
      cases hcq : s.curQ with
      | none =>
        have hfl : flushQ s = s := by simp [flushQ, hcq]
        have h1 : mpGo s.curSec.isSome (mpCq s) s.collecting s.ansBuf (l :: rest) =
            mpGo true none s.collecting s.ansBuf rest := by
          simp only [mpGo, hsec, mpCq, hcq]
          rfl
        rw [h1, hnew, List.append_assoc]
        simp [mpCq, hcq, hfl]
      | some c =>
        have h1 : mpGo s.curSec.isSome (mpCq s) s.collecting s.ansBuf (l :: rest) =
            (if s.collecting then
               mpEmit c.attached c.qid c.answers.length s.ansBuf else []) ++
              mpGo true none false [] rest := by
          simp only [mpGo, hsec, mpCq, hcq]
          rfl
        rw [h1, hnew, List.append_assoc]
        simp [mpCq, mpEmit, flushQ, hcq]
    | none =>
    cases hq : questionHdrFull? l with
    | some qt =>
      rcases qt with ⟨qid, t⟩
      have hnew : pstep s l = { flushQ s with
          curQ := some ⟨qid, trimL t, (flushQ s).curSec.isSome, [], []⟩,
          collecting := false,
          bodyBuf := [],
          ansBuf := [] } := by
        simp only [pstep, hsec, hq]
      have hsp : statePairs (pstep s l) =
          modelPairs s.secs ++ ((flushQ s).curQs.map qPairs).flatten := by
        rw [hnew]
        simp [statePairs, flushQ_secs, curQPairs, qPairs]
      have h1 : mpGo s.curSec.isSome (mpCq s) s.collecting s.ansBuf (l :: rest) =
          (match mpCq s with
           | none => []
           | some (att, qid0, idx) =>
             if s.collecting then mpEmit att qid0 idx s.ansBuf else []) ++
            mpGo s.curSec.isSome (some (s.curSec.isSome, qid, 0)) false [] rest := by
        simp only [mpGo, hsec, hq]
      rw [hsp, h1]
      have hproj : (pstep s l).curSec.isSome = s.curSec.isSome := by
        rw [hnew]; simp [flushQ_curSec]
      have hcqn : mpCq (pstep s l) = some (s.curSec.isSome, qid, 0) := by
        rw [hnew]; simp [mpCq, flushQ_curSec]
      have hcol : (pstep s l).collecting = false := by rw [hnew]
      have hbuf : (pstep s l).ansBuf = [] := by rw [hnew]
      rw [hproj, hcqn, hcol, hbuf, flushQ_curQs]
      cases hcq : s.curQ with
      | none => simp [statePairs, mpCq, hcq]
      | some c =>
        cases hatt : c.attached
        · simp [statePairs, mpCq, hcq, hatt, curQPairs, mpEmit]
        · cases hcolS : s.collecting <;>
            simp [statePairs, mpCq, hcq, hatt, hcolS, curQPairs, mpEmit, qPairs_finalQ]
    | none =>
      cases hcq : s.curQ with
      | none =>
        have hnew : pstep s l = s := by simp only [pstep, hsec, hq, hcq]
        have h1 : mpGo s.curSec.isSome (mpCq s) s.collecting s.ansBuf (l :: rest) =
            mpGo s.curSec.isSome none s.collecting s.ansBuf rest := by
          rw [show mpCq s = none from by simp [mpCq, hcq]]
          simp only [mpGo, hsec, hq]
        rw [h1, hnew]
        simp [mpCq, hcq]
      | some c =>
        by_cases hm : markerRE l
        · cases hcolS : s.collecting
          · have hnew : pstep s l = { s with collecting := true } := by
              simp only [pstep, hsec, hq, hcq, if_pos hm, hcolS, Bool.false_eq_true, if_false]
            have h1 : mpGo s.curSec.isSome (mpCq s) false s.ansBuf (l :: rest) =
                mpGo s.curSec.isSome (some (c.attached, c.qid, c.answers.length))
                  true s.ansBuf rest := by
              rw [show mpCq s = some (c.attached, c.qid, c.answers.length) from by
                simp [mpCq, hcq]]
              simp only [mpGo, hsec, hq, if_pos hm, Bool.false_eq_true, if_false]
            rw [h1, hnew]
            simp [statePairs, mpCq, hcq]
          · have hnew : pstep s l = { s with
                curQ := some { c with answers := c.answers ++ [joinTrim s.ansBuf] },
                ansBuf := [], collecting := true } := by
              simp only [pstep, hsec, hq, hcq, if_pos hm, hcolS, if_true]
            have h1 : mpGo s.curSec.isSome (mpCq s) true s.ansBuf (l :: rest) =
                mpEmit c.attached c.qid c.answers.length s.ansBuf ++
                  mpGo s.curSec.isSome (some (c.attached, c.qid, c.answers.length + 1))
                    true [] rest := by
              rw [show mpCq s = some (c.attached, c.qid, c.answers.length) from by
                simp [mpCq, hcq]]
              simp only [mpGo, hsec, hq, if_pos hm, if_true]
            rw [h1, hnew]
            cases hatt : c.attached <;>
              simp [statePairs, mpCq, hcq, hatt, curQPairs, mpEmit,
                enum_append_singleton]
        · by_cases hcolS : s.collecting
          swap
          · rw [Bool.not_eq_true] at hcolS
            have hnew : pstep s l = { s with bodyBuf := s.bodyBuf ++ [l] } := by
              simp only [pstep, hsec, hq, hcq, if_neg hm, hcolS, Bool.false_eq_true, if_false]
            have h1 : mpGo s.curSec.isSome (mpCq s) s.collecting s.ansBuf (l :: rest) =
                mpGo s.curSec.isSome (some (c.attached, c.qid, c.answers.length))
                  false s.ansBuf rest := by
              rw [show mpCq s = some (c.attached, c.qid, c.answers.length) from by
                simp [mpCq, hcq]]
              simp only [mpGo, hsec, hq, if_neg hm, hcolS, Bool.false_eq_true, if_false]
            rw [h1, hnew]
            simp [statePairs, mpCq, hcq, hcolS]
          · by_cases hd : trimL l = ['-', '-', '-']
            · have hnew : pstep s l = { s with
                  curQ := some { c with answers := c.answers ++ [joinTrim s.ansBuf] },
                  ansBuf := [], collecting := false } := by
                simp only [pstep, hsec, hq, hcq, if_neg hm, hcolS, if_true, if_pos hd]
              have h1 : mpGo s.curSec.isSome (mpCq s) s.collecting s.ansBuf (l :: rest) =
                  mpEmit c.attached c.qid c.answers.length s.ansBuf ++
                    mpGo s.curSec.isSome (some (c.attached, c.qid, c.answers.length + 1))
                      false [] rest := by
                rw [show mpCq s = some (c.attached, c.qid, c.answers.length) from by
                  simp [mpCq, hcq]]
                simp only [mpGo, hsec, hq, if_neg hm, hcolS, if_true, if_pos hd]
              rw [h1, hnew]
              cases hatt : c.attached <;>
                simp [statePairs, mpCq, hcq, hatt, curQPairs, mpEmit,
                  enum_append_singleton]
            · by_cases hf : subPromptFull l
              · have hnew : pstep s l = { s with
                    curQ := some { c with answers := c.answers ++ [joinTrim s.ansBuf],
                                          subPrompts := c.subPrompts ++ [l] },
                    ansBuf := [], collecting := false, bodyBuf := s.bodyBuf ++ [l] } := by
                  simp only [pstep, hsec, hq, hcq, if_neg hm, hcolS, if_true, if_neg hd,
                    if_pos hf]
                have h1 : mpGo s.curSec.isSome (mpCq s) s.collecting s.ansBuf (l :: rest) =
                    mpEmit c.attached c.qid c.answers.length s.ansBuf ++
                      mpGo s.curSec.isSome (some (c.attached, c.qid, c.answers.length + 1))
                        false [] rest := by
                  rw [show mpCq s = some (c.attached, c.qid, c.answers.length) from by
                    simp [mpCq, hcq]]
                  simp only [mpGo, hsec, hq, if_neg hm, hcolS, if_true, if_neg hd, if_pos hf]
                rw [h1, hnew]
                cases hatt : c.attached <;>
                  simp [statePairs, mpCq, hcq, hatt, curQPairs, mpEmit,
                    enum_append_singleton]
              · have hnew : pstep s l = { s with ansBuf := s.ansBuf ++ [l] } := by
                  simp only [pstep, hsec, hq, hcq, if_neg hm, hcolS, if_true, if_neg hd,
                    if_neg hf]
                have h1 : mpGo s.curSec.isSome (mpCq s) s.collecting s.ansBuf (l :: rest) =
                    mpGo s.curSec.isSome (some (c.attached, c.qid, c.answers.length))
                      true (s.ansBuf ++ [l]) rest := by
                  rw [show mpCq s = some (c.attached, c.qid, c.answers.length) from by
                    simp [mpCq, hcq]]
                  simp only [mpGo, hsec, hq, if_neg hm, hcolS, if_true, if_neg hd, if_neg hf]
                rw [h1, hnew]
                simp [statePairs, mpCq, hcq, hcolS]

/-! ### Agreement and disjointness of the line matchers -/

theorem dropPref_eq : ∀ (pat l r : List Char), dropPref pat l = some r → l = pat ++ r := by
  intro pat
  induction pat with
  | nil =>
    intro l r h
    simp only [dropPref, Option.some.injEq] at h
    rw [h]; rfl
  | cons p ps ih =>
    intro l r h
    cases l with
    | nil => simp [dropPref] at h
    | cons c cs =>
      simp only [dropPref] at h
      by_cases hc : c = p
      · rw [if_pos hc] at h
        rw [hc, ih cs r h]
        rfl
      · rw [if_neg hc] at h
        cases h

theorem markerRE_hash (r : List Char) : markerRE ('#' :: r) = false := rfl

theorem qidPrefix?_secHdr (r : List Char) : qidPrefix? ('#' :: '#' :: ' ' :: r) = none := rfl

theorem qidPrefix?_startsW (l : Line) (h : (qidPrefix? l).isSome) :
    startsW ['#', '#', '#', ' '] l = true := by
  unfold qidPrefix? at h
  unfold startsW
  cases hd : dropPref ['#', '#', '#', ' '] l with
  | none => rw [hd] at h; simp at h
  | some r => simp

/-- When the full question-header pattern matches, the rewriter's
id-only pattern extracts the same dotted id. -/
theorem qHdrFull_qidPrefix (l : Line) (qid t : Line)
    (h : questionHdrFull? l = some (qid, t)) : qidPrefix? l = some qid := by
  unfold questionHdrFull? at h
  unfold qidPrefix?
  cases hd : dropPref ['#', '#', '#', ' '] l with
  | none => simp [hd] at h
  | some r =>
    simp only [hd] at h ⊢
    by_cases h1 : (r.takeWhile isDig).isEmpty
    · simp [h1] at h
    · simp only [h1, Bool.false_eq_true, if_false] at h ⊢
      cases hw : r.dropWhile isDig with
      | nil => simp [hw] at h
      | cons c r2 =>
        rw [hw] at h
        by_cases hc : c = '.'
        · subst hc
          by_cases h2 : (r2.takeWhile isDig).isEmpty
          · simp [h2] at h
          · simp only [h2, Bool.false_eq_true, if_false] at h ⊢
            cases hw2 : r2.dropWhile isDig with
            | nil => simp [hw2] at h
            | cons c2 r3 =>
              rw [hw2] at h
              by_cases hc2 : c2 = ' '
              · subst hc2
                by_cases h3 : r3.isEmpty
                · simp [h3] at h
                · simp only [h3, Bool.false_eq_true, if_false, Option.some.injEq,
                    Prod.mk.injEq] at h
                  rw [h.1]
              · exact absurd h (by
                  cases c2
                  simp_all)
        · exact absurd h (by
            cases c
            simp_all)

/-- Under `lineOK`, a line on which the full question pattern fails
also fails the id-only pattern. -/
theorem qidPrefix_none_of (l : Line) (hok : lineOK l = true)
    (hq : questionHdrFull? l = none) : qidPrefix? l = none := by
  obtain ⟨p1, _, _, _, _, _, _⟩ := lineOK_parts l hok
  cases hp : qidPrefix? l with
  | none => rfl
  | some q =>
    have hs : startsW ['#', '#', '#', ' '] l = true :=
      qidPrefix?_startsW l (by rw [hp]; rfl)
    have := p1 hs
    rw [hq] at this
    cases this

theorem segPairs_cons_plain (l : Line) (ss : List Seg) :
    segPairs (.plain l :: ss) = segPairs ss := by simp [segPairs]

theorem segPairs_cons_slot (m : Line) (k : Line) (c : List Line) (ss : List Seg) :
    segPairs (.slot m (some k) c :: ss) = (k, joinTrim c) :: segPairs ss := by
  simp [segPairs]

theorem markerRE_shape (l : Line) (h : markerRE l = true) :
    ∃ r, l = 'Y' :: r := by
  unfold markerRE at h
  cases hd : dropPref ['Y', 'o', 'u', 'r', ' ', 'a', 'n', 's', 'w', 'e', 'r'] l with
  | none => rw [hd] at h; cases h
  | some r =>
    have := dropPref_eq _ _ _ hd
    exact ⟨_, by rw [this]; rfl⟩

theorem startsW_shape (pat : List Char) (l : Line) (h : startsW pat l = true) :
    ∃ r, l = pat ++ r := by
  unfold startsW at h
  cases hd : dropPref pat l with
  | none => rw [hd] at h; cases h
  | some r => exact ⟨r, dropPref_eq _ _ _ hd⟩

theorem qidPrefix?_marker (l : Line) (h : markerRE l = true) : qidPrefix? l = none := by
  obtain ⟨r, hr⟩ := markerRE_shape l h
  rw [hr]; rfl

theorem markerRE_of_secHdr (l : Line) (h : (sectionHdr? l).isSome) : markerRE l = false := by
  obtain ⟨r, hr⟩ := startsW_shape _ l (secHdr_startsW l h)
  rw [hr]; rfl

theorem markerRE_of_qHdr (l : Line) (h : (questionHdrFull? l).isSome) : markerRE l = false := by
  obtain ⟨r, hr⟩ := startsW_shape _ l (qHdr_startsW l h)
  rw [hr]; rfl

theorem qidPrefix?_of_secHdr (l : Line) (h : (sectionHdr? l).isSome) : qidPrefix? l = none := by
  obtain ⟨r, hr⟩ := startsW_shape _ l (secHdr_startsW l h)
  rw [hr]; rfl

theorem rBoundary_of_secHdr (l : Line) (h : (sectionHdr? l).isSome) : rBoundary l = true := by
  simp [rBoundary, secHdr_startsW l h]

theorem rBoundary_of_qHdr (l : Line) (h : (questionHdrFull? l).isSome) : rBoundary l = true := by
  simp [rBoundary, qHdr_startsW l h]

theorem rBoundary_of_marker (l : Line) (h : markerRE l = true) : rBoundary l = true := by
  simp [rBoundary, h]

/-- The key simulation: under per-line well-formedness and the
attachment condition, the key/answer scan of the parser produces
exactly the keyed old contents of the rewriter's slot decomposition. -/
theorem segPairs_sim : ∀ (ls : List Line) (hs : Bool)
    (cq : Option (Bool × Line × Nat)) (col : Bool) (buf : List Line)
    (q : Option Line) (i : Nat) (pend : Option (Line × Option Line × List Line)),
    (∀ l ∈ ls, lineOK l = true) →
    attachedGo hs (cq.map (fun c => c.1)) ls = true →
    (col = false → buf = [] ∧ pend = none ∧
      ∀ a qid idx, cq = some (a, qid, idx) → a = true → q = some qid ∧ i = idx) →
    (col = true → ∃ a qid idx m, cq = some (a, qid, idx) ∧ a = true ∧ q = some qid ∧
      i = idx + 1 ∧ pend = some (m, some (keyOf qid idx), buf)) →
    mpGo hs cq col buf ls = segPairs (segsGo q i pend ls) := by
  intro ls
  induction ls with
  | nil =>
    intro hs cq col buf q i pend _ _ h3 h4
    cases hcol : col with
    | false =>
      obtain ⟨hbuf, hpend, _⟩ := h3 hcol
      subst hpend
      cases hcq : cq with
      | none => simp [mpGo, segsGo, segPairs]
      | some p =>
        rcases p with ⟨a, qid, idx⟩
        simp [mpGo, segsGo, segPairs, hcol]
    | true =>
      obtain ⟨a, qid, idx, m, hcq, ha, hq, hi, hpend⟩ := h4 hcol
      subst hpend hcq
      simp [mpGo, segsGo, segPairs_cons_slot, mpEmit, ha, segPairs]
  | cons l rest ih =>
    intro hs cq col buf q i pend hok hw1 h3 h4
    have hokl : lineOK l = true := hok l (by simp)
    have hokr : ∀ x ∈ rest, lineOK x = true := fun x hx => hok x (by simp [hx])
    cases hsec : sectionHdr? l with
    | some nt =>
      rcases nt with ⟨n, t⟩
      have hsome : (sectionHdr? l).isSome := by rw [hsec]; rfl
      have hm : markerRE l = false := markerRE_of_secHdr l hsome
      have hqp : qidPrefix? l = none := qidPrefix?_of_secHdr l hsome
      have hb : rBoundary l = true := rBoundary_of_secHdr l hsome
      have hstep : stepQid q i l = (q, i) := by simp [stepQid, hqp]
      have hw1' : attachedGo true none rest = true := by
        simp only [attachedGo, hsome, if_true] at hw1
        exact hw1
      cases hcol : col with
      | false =>
        obtain ⟨hbuf, hpend, _⟩ := h3 hcol
        subst hpend
        have hseg : segsGo q i none (l :: rest) = .plain l :: segsGo q i none rest := by
          simp only [segsGo, hstep, hm, Bool.false_eq_true, if_false]
        rw [hseg, segPairs_cons_plain]
        cases hcq : cq with
        | none =>
          have hmp : mpGo hs none false buf (l :: rest) = mpGo true none false buf rest := by
            simp only [mpGo, hsec]
          rw [hmp]
          exact ih true none false buf q i none hokr (by simpa [hcq] using hw1')
            (fun _ => ⟨hbuf, rfl, by intro a qid idx h; cases h⟩) (by intro h; cases h)
        | some p =>
          rcases p with ⟨a, qid, idx⟩
          have hmp : mpGo hs (some (a, qid, idx)) false buf (l :: rest) =
              mpGo true none false [] rest := by
            simp only [mpGo, hsec, Bool.false_eq_true, if_false]
            rfl
          rw [hmp]
          exact ih true none false [] q i none hokr (by simpa using hw1')
            (fun _ => ⟨rfl, rfl, by intro a qid idx h; cases h⟩) (by intro h; cases h)
      | true =>
        obtain ⟨a, qid, idx, m, hcq, ha, hqv, hi, hpend⟩ := h4 hcol
        subst hpend hcq
        have hseg : segsGo q i (some (m, some (keyOf qid idx), buf)) (l :: rest) =
            .slot m (some (keyOf qid idx)) buf :: .plain l :: segsGo q i none rest := by
          simp only [segsGo, hstep, hb, if_true, hm, Bool.false_eq_true, if_false]
        have hmp : mpGo hs (some (a, qid, idx)) true buf (l :: rest) =
            mpEmit a qid idx buf ++ mpGo true none false [] rest := by
          simp only [mpGo, hsec, if_true]
        rw [hseg, hmp, segPairs_cons_slot, segPairs_cons_plain, mpEmit, if_pos ha]
        rw [ih true none false [] q i none hokr (by simpa using hw1')
          (fun _ => ⟨rfl, rfl, by intro a qid idx h; cases h⟩) (by intro h; cases h)]
        rfl
    | none =>
    cases hq : questionHdrFull? l with
    | some qt =>
      rcases qt with ⟨qid0, t⟩
      have hsome : (questionHdrFull? l).isSome := by rw [hq]; rfl
      have hm : markerRE l = false := markerRE_of_qHdr l hsome
      have hqp : qidPrefix? l = some qid0 := qHdrFull_qidPrefix l qid0 t hq
      have hb : rBoundary l = true := rBoundary_of_qHdr l hsome
      have hstep : stepQid q i l = (some qid0, 0) := by simp [stepQid, hqp]
      have hw1' : attachedGo hs (some hs) rest = true := by
        simp only [attachedGo, hsec, hsome, if_true] at hw1
        simp only [Option.isSome_none, Bool.false_eq_true, if_false] at hw1
        exact hw1
      have hihnew := ih hs (some (hs, qid0, 0)) false [] (some qid0) 0 none hokr
        (by simpa using hw1')
        (fun _ => ⟨rfl, rfl, by
          intro a qid idx h ha
          simp only [Option.some.injEq, Prod.mk.injEq] at h
          exact ⟨by rw [h.2.1], by rw [h.2.2]⟩⟩)
        (by intro h; cases h)
      cases hcol : col with
      | false =>
        obtain ⟨hbuf, hpend, _⟩ := h3 hcol
        subst hpend
        have hseg : segsGo q i none (l :: rest) =
            .plain l :: segsGo (some qid0) 0 none rest := by
          simp only [segsGo, hstep, hm, Bool.false_eq_true, if_false]
        rw [hseg, segPairs_cons_plain]
        cases hcq : cq with
        | none =>
          have hmp : mpGo hs none false buf (l :: rest) =
              mpGo hs (some (hs, qid0, 0)) false [] rest := by
            simp only [mpGo, hsec, hq]
            rfl
          rw [hmp]
          exact hihnew
        | some p =>
          rcases p with ⟨a, qid, idx⟩
          have hmp : mpGo hs (some (a, qid, idx)) false buf (l :: rest) =
              mpGo hs (some (hs, qid0, 0)) false [] rest := by
            simp only [mpGo, hsec, hq, Bool.false_eq_true, if_false]
            rfl
          rw [hmp]
          exact hihnew
      | true =>
        obtain ⟨a, qid, idx, m, hcq, ha, hqv, hi, hpend⟩ := h4 hcol
        subst hpend hcq
        have hseg : segsGo q i (some (m, some (keyOf qid idx), buf)) (l :: rest) =
            .slot m (some (keyOf qid idx)) buf ::
              .plain l :: segsGo (some qid0) 0 none rest := by
          simp only [segsGo, hstep, hb, if_true, hm, Bool.false_eq_true, if_false]
        have hmp : mpGo hs (some (a, qid, idx)) true buf (l :: rest) =
            mpEmit a qid idx buf ++ mpGo hs (some (hs, qid0, 0)) false [] rest := by
          simp only [mpGo, hsec, hq, if_true]
        rw [hseg, hmp, segPairs_cons_slot, segPairs_cons_plain, mpEmit, if_pos ha, hihnew]
        rfl
    | none =>
      cases hcq : cq with
      | none =>
        have hcolf : col = false := by
          cases hcolv : col with
          | false => rfl
          | true =>
            obtain ⟨a, qid, idx, m, hcq2, _⟩ := h4 hcolv
            rw [hcq2] at hcq
            cases hcq
        subst hcolf
        obtain ⟨hbuf, hpend, _⟩ := h3 rfl
        subst hpend
        have hm : markerRE l = false := by
          cases hmv : markerRE l with
          | false => rfl
          | true =>
            simp only [attachedGo, hsec, hq, Option.isSome_none, Bool.false_eq_true,
              if_false, hmv, if_true, hcq, Option.map_none] at hw1
            simp at hw1
        have hqp : qidPrefix? l = none := qidPrefix_none_of l hokl hq
        have hstep : stepQid q i l = (q, i) := by simp [stepQid, hqp]
        have hseg : segsGo q i none (l :: rest) = .plain l :: segsGo q i none rest := by
          simp only [segsGo, hstep, hm, Bool.false_eq_true, if_false]
        have hmp : mpGo hs none false buf (l :: rest) = mpGo hs none false buf rest := by
          simp only [mpGo, hsec, hq]
        have hw1' : attachedGo hs none rest = true := by
          simp only [attachedGo, hsec, hq, Option.isSome_none, Bool.false_eq_true,
            if_false, hm, hcq, Option.map_none] at hw1
          simpa using hw1
        rw [hmp, hseg, segPairs_cons_plain]
        exact ih hs none false buf q i none hokr (by simpa using hw1')
          (fun _ => ⟨hbuf, rfl, by intro a qid idx h; cases h⟩) (by intro h; cases h)
      | some p =>
        rcases p with ⟨a, qid, idx⟩
        subst hcq
        have hqp : qidPrefix? l = none := qidPrefix_none_of l hokl hq
        have hstep : stepQid q i l = (q, i) := by simp [stepQid, hqp]
        by_cases hm : markerRE l
        · simp only [attachedGo, hsec, hq, Option.isSome_none, Bool.false_eq_true,
            if_false, hm, if_true, Bool.and_eq_true] at hw1
          have ha : a = true := by simpa using hw1.1
          have hw1' : attachedGo hs (some a) rest = true := by simpa using hw1.2
          subst ha
          have hb : rBoundary l = true := rBoundary_of_marker l hm
          cases hcol : col with
          | false =>
            obtain ⟨hbuf, hpend, hsync⟩ := h3 hcol
            subst hpend hbuf
            obtain ⟨hqv, hiv⟩ := hsync true qid idx rfl rfl
            subst hqv
            rw [hiv]
            rw [hiv] at hstep
            have hseg : segsGo (some qid) idx none (l :: rest) =
                segsGo (some qid) (idx + 1)
                  (some (l, some (keyOf qid idx), [])) rest := by
              simp only [segsGo, hstep, hm, if_true]
              rfl
            have hmp : mpGo hs (some (true, qid, idx)) false [] (l :: rest) =
                mpGo hs (some (true, qid, idx)) true [] rest := by
              simp only [mpGo, hsec, hq, hm, if_true, Bool.false_eq_true, if_false]
            rw [hmp, hseg]
            exact ih hs (some (true, qid, idx)) true [] (some qid) (idx + 1)
              (some (l, some (keyOf qid idx), [])) hokr (by simpa using hw1')
              (by intro h; cases h)
              (fun _ => ⟨true, qid, idx, l, rfl, rfl, rfl, rfl, rfl⟩)
          | true =>
            obtain ⟨a2, qid2, idx2, m, hcq2, ha2, hqv, hiv, hpend⟩ := h4 hcol
            simp only [Option.some.injEq, Prod.mk.injEq] at hcq2
            obtain ⟨hae, hqe, hie⟩ := hcq2
            subst hae hqe hie
            subst hqv hiv hpend
            have hseg : segsGo (some qid) (idx + 1)
                (some (m, some (keyOf qid idx), buf)) (l :: rest) =
                .slot m (some (keyOf qid idx)) buf ::
                  segsGo (some qid) (idx + 1 + 1)
                    (some (l, some (keyOf qid (idx + 1)), [])) rest := by
              simp only [segsGo, hstep, hb, if_true, hm]
              rfl
            have hmp : mpGo hs (some (true, qid, idx)) true buf (l :: rest) =
                mpEmit true qid idx buf ++
                  mpGo hs (some (true, qid, idx + 1)) true [] rest := by
              simp only [mpGo, hsec, hq, hm, if_true]
            rw [hmp, hseg, segPairs_cons_slot, mpEmit, if_pos rfl]
            rw [ih hs (some (true, qid, idx + 1)) true [] (some qid) (idx + 1 + 1)
              (some (l, some (keyOf qid (idx + 1)), [])) hokr (by simpa using hw1')
              (by intro h; cases h)
              (fun _ => ⟨true, qid, idx + 1, l, rfl, rfl, rfl, rfl, rfl⟩)]
            rfl
        · simp only [attachedGo, hsec, hq, Option.isSome_none, Bool.false_eq_true,
            if_false, hm] at hw1
          have hw1' : attachedGo hs (some a) rest = true := by simpa using hw1
          cases hcol : col with
          | false =>
            obtain ⟨hbuf, hpend, hsync⟩ := h3 hcol
            subst hpend
            have hseg : segsGo q i none (l :: rest) = .plain l :: segsGo q i none rest := by
              simp only [segsGo, hstep, hm, Bool.false_eq_true, if_false]
            have hmp : mpGo hs (some (a, qid, idx)) false buf (l :: rest) =
                mpGo hs (some (a, qid, idx)) false buf rest := by
              simp only [mpGo, hsec, hq, hm, Bool.false_eq_true, if_false]
            rw [hmp, hseg, segPairs_cons_plain]
            exact ih hs (some (a, qid, idx)) false buf q i none hokr
              (by simpa using hw1') (fun _ => ⟨hbuf, rfl, hsync⟩)
              (by intro h; cases h)
          | true =>
            obtain ⟨a2, qid2, idx2, m, hcq2, ha2, hqv, hiv, hpend⟩ := h4 hcol
            simp only [Option.some.injEq, Prod.mk.injEq] at hcq2
            obtain ⟨hae, hqe, hie⟩ := hcq2
            subst hae hqe hie
            subst hqv hiv hpend
            subst ha2
            by_cases hd : trimL l = ['-', '-', '-']
            · obtain ⟨_, _, _, p4, _, _, _⟩ := lineOK_parts l hokl
              have hb : rBoundary l = true := by
                simp [rBoundary, p4 (by simp [hd])]
              have hseg : segsGo (some qid) (idx + 1)
                  (some (m, some (keyOf qid idx), buf)) (l :: rest) =
                  .slot m (some (keyOf qid idx)) buf ::
                    .plain l :: segsGo (some qid) (idx + 1) none rest := by
                simp only [segsGo, hstep, hb, if_true, hm, Bool.false_eq_true, if_false]
              have hmp : mpGo hs (some (true, qid, idx)) true buf (l :: rest) =
                  mpEmit true qid idx buf ++
                    mpGo hs (some (true, qid, idx + 1)) false [] rest := by
                simp only [mpGo, hsec, hq, hm, Bool.false_eq_true, if_false, if_true,
                  if_pos hd]
              rw [hmp, hseg, segPairs_cons_slot, segPairs_cons_plain, mpEmit, if_pos rfl]
              rw [ih hs (some (true, qid, idx + 1)) false [] (some qid) (idx + 1) none hokr
                (by simpa using hw1')
                (fun _ => ⟨rfl, rfl, by
                  intro a2 qid2 idx2 h2 ha2
                  simp only [Option.some.injEq, Prod.mk.injEq] at h2
                  exact ⟨by rw [← h2.2.1], by rw [← h2.2.2]⟩⟩)
                (by intro h; cases h)]
              rfl
            · by_cases hf : subPromptFull l
              · have hb : rBoundary l = true := by
                  simp [rBoundary, subPromptFull_start l hf]
                have hseg : segsGo (some qid) (idx + 1)
                    (some (m, some (keyOf qid idx), buf)) (l :: rest) =
                    .slot m (some (keyOf qid idx)) buf ::
                      .plain l :: segsGo (some qid) (idx + 1) none rest := by
                  simp only [segsGo, hstep, hb, if_true, hm, Bool.false_eq_true, if_false]
                have hmp : mpGo hs (some (true, qid, idx)) true buf (l :: rest) =
                    mpEmit true qid idx buf ++
                      mpGo hs (some (true, qid, idx + 1)) false [] rest := by
                  simp only [mpGo, hsec, hq, hm, Bool.false_eq_true, if_false, if_true,
                    if_neg hd, if_pos hf]
                rw [hmp, hseg, segPairs_cons_slot, segPairs_cons_plain, mpEmit, if_pos rfl]
                rw [ih hs (some (true, qid, idx + 1)) false [] (some qid) (idx + 1) none hokr
                  (by simpa using hw1')
                  (fun _ => ⟨rfl, rfl, by
                    intro a2 qid2 idx2 h2 ha2
                    simp only [Option.some.injEq, Prod.mk.injEq] at h2
                    exact ⟨by rw [← h2.2.1], by rw [← h2.2.2]⟩⟩)
                  (by intro h; cases h)]
                rfl
              · have hpb : pBoundary l = false := by
                  simp [pBoundary, hsec, hq, hm, hf, hd]
                have hb : rBoundary l = false := by
                  rw [← boundary_agree l hokl]
                  exact hpb
                have hseg : segsGo (some qid) (idx + 1)
                    (some (m, some (keyOf qid idx), buf)) (l :: rest) =
                    segsGo (some qid) (idx + 1)
                      (some (m, some (keyOf qid idx), buf ++ [l])) rest := by
                  simp only [segsGo, hb, Bool.false_eq_true, if_false]
                have hmp : mpGo hs (some (true, qid, idx)) true buf (l :: rest) =
                    mpGo hs (some (true, qid, idx)) true (buf ++ [l]) rest := by
                  simp only [mpGo, hsec, hq, hm, Bool.false_eq_true, if_false, if_true,
                    if_neg hd, hf]
                rw [hmp, hseg]
                exact ih hs (some (true, qid, idx)) true (buf ++ [l]) (some qid) (idx + 1)
                  (some (m, some (keyOf qid idx), buf ++ [l])) hokr (by simpa using hw1')
                  (by intro h; cases h)
                  (fun _ => ⟨true, qid, idx, m, rfl, rfl, rfl, rfl, rfl⟩)

/-- For every document, the pairs of the parsed model are exactly those
of the direct scan. -/
theorem modelPairs_eq_miniPairs (ls : List Line) :
    modelPairs (parseLines ls) = miniPairs ls := by
  have h := mpGo_sim ls pinit (by intro h; exact ⟨rfl, by intro c hc; cases hc⟩)
  simpa [parseLines, statePairs, mpCq, miniPairs, pinit, modelPairs] using h

/-- Under well-formedness, the parser's recorded pairs are exactly the
keyed old contents of the rewriter's slots. -/
theorem miniPairs_eq_segPairs (ls : List Line)
    (hok : ∀ l ∈ ls, lineOK l = true) (hw1 : markersAttached ls = true) :
    miniPairs ls = segPairs (docSegs ls) :=
  segPairs_sim ls false none false [] none 0 none hok
    (by simpa [markersAttached] using hw1)
    (fun _ => ⟨rfl, rfl, by intro a qid idx h; cases h⟩)
    (by intro h; cases h)

theorem lookup_of_mem_nodup : ∀ (ps : List (Line × Line)) (k v : Line),
    (k, v) ∈ ps → ((ps.map Prod.fst).Nodup) → ps.lookup k = some v := by
  intro ps
  induction ps with
  | nil => intro k v hmem _; cases hmem
  | cons p rest ih =>
    intro k v hmem hnd
    rcases p with ⟨k0, v0⟩
    rw [List.mem_cons] at hmem
    simp only [List.map_cons, List.nodup_cons] at hnd
    rcases hmem with h | h
    · simp only [Prod.mk.injEq] at h
      rw [h.1, h.2]
      simp [List.lookup]
    · have hk : k ≠ k0 := by
        intro he
        apply hnd.1
        rw [← he]
        exact List.mem_map_of_mem Prod.fst h
      have hbeq : (k == k0) = false := by
        simpa using hk
      simp only [List.lookup, hbeq]
      exact ih k v h hnd.2

theorem segPairs_mem (ss : List Seg) (m : Line) (k : Line) (c : List Line)
    (h : Seg.slot m (some k) c ∈ ss) : (k, joinTrim c) ∈ segPairs ss := by
  rw [segPairs, List.mem_filterMap]
  exact ⟨Seg.slot m (some k) c, h, rfl⟩

/-- Round trip: on a well-formed document whose slots are in normal
form, rewriting with the parsed model's own answers reproduces the
document byte for byte. -/
theorem roundTrip_exact (ls : List Line)
    (hok : ∀ l ∈ ls, lineOK l = true)
    (hw1 : markersAttached ls = true)
    (hw3 : slotsNormal ls = true)
    (hw4 : ((segPairs (docSegs ls)).map Prod.fst).Nodup) :
    saveLines (modelMap (parseLines ls)) ls = ls := by
  set ans := modelMap (parseLines ls) with hans
  rw [saveLines_eq_segsOut]
  have hrepl : ∀ s ∈ docSegs ls, replaceSeg ans s = segLines s := by
    intro s hs
    cases s with
    | plain l => rfl
    | slot m k c =>
      have hnorm : slotNormal (Seg.slot m k c) = true := by
        rw [slotsNormal, List.all_eq_true] at hw3
        exact hw3 _ hs
      simp only [slotNormal, Bool.and_eq_true, beq_iff_eq] at hnorm
      obtain ⟨hksome, hcnorm⟩ := hnorm
      obtain ⟨key, hkey⟩ := Option.isSome_iff_exists.mp hksome
      subst hkey
      have hmem : (key, joinTrim c) ∈ segPairs (docSegs ls) := segPairs_mem _ m key c hs
      have hlook : (segPairs (docSegs ls)).lookup key = some (joinTrim c) :=
        lookup_of_mem_nodup _ key (joinTrim c) hmem hw4
      have hmm : ans key = some (joinTrim c) := by
        rw [hans]
        show (modelPairs (parseLines ls)).lookup key = _
        rw [modelPairs_eq_miniPairs, miniPairs_eq_segPairs ls hok hw1, hlook]
      have htr : trimL (joinTrim c) = joinTrim c := trimL_idem (joinL c)
      show m :: insOfKey ans (some key) ++ [[]] = segLines (Seg.slot m (some key) c)
      simp only [insOfKey, hmm, htr, segLines]
      conv_rhs => rw [hcnorm]
      simp only [nInsert, List.cons_append]
  show segsOut ans (docSegs ls) = ls
  rw [segsOut, List.map_congr_left hrepl]
  exact docSegs_lines ls

/-- For every document, the parser records per question exactly as many
answers as there are marker lines in that question's range. -/
theorem parse_counts_eq_markerCounts (ls : List Line) :
    (parseLines ls).map (fun sec => sec.questions.map (fun q => q.answers.length)) =
      markerCounts ls := by
  have hfold : ∀ (s0 : PState), mcAbs (ls.foldl pstep s0) = ls.foldl mcStep (mcAbs s0) := by
    induction ls with
    | nil => intro s0; rfl
    | cons l rest ih =>
      intro s0
      show mcAbs (rest.foldl pstep (pstep s0 l)) = rest.foldl mcStep (mcStep (mcAbs s0) l)
      rw [ih (pstep s0 l), mcStep_comm]
  show (closedSecs (flushQ (ls.foldl pstep pinit))).map _ = _
  rw [mcExtract (ls.foldl pstep pinit)]
  rw [hfold pinit]
  rfl

/-! ### Classification of body lines by `_process_body` -/

theorem optOf_bold (l : Line) (c : Char) (txt extra : Line)
    (h : boldOpt? l = some (c, txt, extra)) :
    optOf l = some ⟨lowerAZ c,
      if (trimL extra).isEmpty then trimL txt else trimL txt ++ ' ' :: trimL extra,
      true⟩ := by
  simp [optOf, h]

theorem optOf_plain (l : Line) (c : Char) (txt : Line)
    (hb : boldOpt? l = none) (h : plainOpt? l = some (c, txt)) :
    optOf l = some ⟨lowerAZ c, txt, false⟩ := by
  simp [optOf, hb, h]

theorem optOf_none (l : Line) (hb : boldOpt? l = none) (hp : plainOpt? l = none) :
    optOf l = none := by
  simp [optOf, hb, hp]

theorem bodyStep_acc (a : BodyAcc) (l : Line) :
    (bodyStep a l).descParts = a.descParts ++ (if descLine l then [l] else []) ∧
    (bodyStep a l).options = a.options ++ (optOf l).toList := by
  cases hb : boldOpt? l with
  | some v =>
    obtain ⟨c, txt, extra⟩ := v
    have hd : descLine l = false := by
      simp [descLine, optOf_bold l c txt extra hb]
    rw [optOf_bold l c txt extra hb]
    simp [bodyStep, hb, hd]
  | none =>
    cases hp : plainOpt? l with
    | some v =>
      obtain ⟨c, txt⟩ := v
      have hd : descLine l = false := by
        simp [descLine, optOf_plain l c txt hb hp]
      rw [optOf_plain l c txt hb hp]
      simp [bodyStep, hb, hp, hd]
    | none =>
      rw [optOf_none l hb hp]
      by_cases ht : startsW ['|'] (trimL l) = true
      · have hd : descLine l = false := by
          simp [descLine, ht]
        simp only [bodyStep, hb, hp, ht, if_pos, hd, if_neg]
        constructor
        · cases hsep : sepCells (tableCells l) with
          | true => simp [hsep]
          | false =>
            cases hth : a.tableHeaders with
            | none => simp [hsep, hth]
            | some hs => simp [hsep, hth]
        · cases hsep : sepCells (tableCells l) with
          | true => simp [hsep]
          | false =>
            cases hth : a.tableHeaders with
            | none => simp [hsep, hth]
            | some hs => simp [hsep, hth]
      · have ht' : startsW ['|'] (trimL l) = false := by
          cases h : startsW ['|'] (trimL l)
          · rfl
          · exact absurd h ht
        by_cases hbl : (trimL l).isEmpty = true
        · have hd : descLine l = false := by
            simp [descLine, hbl]
          simp [bodyStep, hb, hp, ht', hbl, hd]
        · have hbl' : (trimL l).isEmpty = false := by
            cases h : (trimL l).isEmpty
            · rfl
            · exact absurd h hbl
          have hd : descLine l = true := by
            simp [descLine, optOf_none l hb hp, ht', hbl']
          simp [bodyStep, hb, hp, ht', hbl', hd]

theorem bodyFold : ∀ (lines : List Line) (a : BodyAcc),
    (lines.foldl bodyStep a).descParts = a.descParts ++ lines.filter descLine ∧
    (lines.foldl bodyStep a).options = a.options ++ lines.filterMap optOf := by
  intro lines
  induction lines with
  | nil => intro a; simp
  | cons l rest ih =>
    intro a
    rcases ih (bodyStep a l) with ⟨h1, h2⟩
    rcases bodyStep_acc a l with ⟨g1, g2⟩
    constructor
    · rw [List.foldl_cons, h1, g1, List.filter_cons]
      by_cases hd : descLine l = true
      · simp [hd]
      · have hd' : descLine l = false := by
          cases h : descLine l
          · rfl
          · exact absurd h hd
        simp [hd']
    · rw [List.foldl_cons, h2, g2, List.filterMap_cons]
      cases ho : optOf l with
      | none => simp
      | some o => simp

theorem processBody_desc_opts (lines : List Line) :
    (processBody lines).1 = joinTrim (lines.filter descLine) ∧
    (processBody lines).2.1 = lines.filterMap optOf := by
  rcases bodyFold lines ⟨[], [], none, []⟩ with ⟨h1, h2⟩
  constructor
  · show joinTrim (lines.foldl bodyStep ⟨[], [], none, []⟩).descParts = _
    rw [h1]
    rfl
  · show (lines.foldl bodyStep ⟨[], [], none, []⟩).options = _
    rw [h2]
    rfl

theorem defaults_count : ∀ (lines : List Line),
    ((lines.filterMap optOf).filter (fun o => o.deflt)).length =
      (lines.filter (fun l => (boldOpt? l).isSome)).length := by
  intro lines
  induction lines with
  | nil => rfl
  | cons l rest ih =>
    rw [List.filterMap_cons, List.filter_cons]
    cases hb : boldOpt? l with
    | some v =>
      obtain ⟨c, txt, extra⟩ := v
      rw [optOf_bold l c txt extra hb]
      simp only [hb, Option.isSome_some, if_pos, List.filter_cons]
      simp [ih]
    | none =>
      cases hp : plainOpt? l with
      | some v =>
        obtain ⟨c, txt⟩ := v
        rw [optOf_plain l c txt hb hp]
        simp only [hb, Option.isSome_none, List.filter_cons]
        simp [ih]
      | none =>
        rw [optOf_none l hb hp]
        simp only [hb, Option.isSome_none]
        simp [ih]

/-! ### Structure of the migrator's generated output -/

theorem startsW2_secHeader (i : Nat) (t : Line) :
    startsW ['#', '#', ' '] (secHeaderLine i t) = true := rfl

theorem startsW3_secHeader (i : Nat) (t : Line) :
    startsW ['#', '#', '#', ' '] (secHeaderLine i t) = false := rfl

theorem startsW2_qHeader (i j : Nat) (t : Line) :
    startsW ['#', '#', ' '] (qHeaderLine i j t) = false := rfl

theorem startsW3_qHeader (i j : Nat) (t : Line) :
    startsW ['#', '#', '#', ' '] (qHeaderLine i j t) = true := rfl

theorem startsW2_nil : startsW ['#', '#', ' '] ([] : Line) = false := rfl

theorem startsW3_nil : startsW ['#', '#', '#', ' '] ([] : Line) = false := rfl

theorem startsW2_div : startsW ['#', '#', ' '] ['-', '-', '-'] = false := rfl

theorem startsW3_div : startsW ['#', '#', '#', ' '] ['-', '-', '-'] = false := rfl

theorem rawLookup_mem : ∀ (bs : RawBlocks) (k : Line) (tb : Line × Line),
    bs.lookup k = some tb → (k, tb) ∈ bs := by
  intro bs
  induction bs with
  | nil => intro k tb h; cases h
  | cons b rest ih =>
    intro k tb h
    rcases b with ⟨k0, tb0⟩
    simp only [List.lookup] at h
    cases hbeq : k == k0 with
    | true =>
      rw [hbeq] at h
      simp only at h
      injection h with h
      subst h
      rw [show k = k0 from by simpa using hbeq]
      exact List.mem_cons_self _ _
    | false =>
      rw [hbeq] at h
      simp only at h
      exact List.mem_cons_of_mem _ (ih k tb h)

theorem genQs_destruct (bs : RawBlocks) (si j : Nat) (qid : Line) (rest : List Line) :
    genQs bs si j (qid :: rest) =
      match bs.lookup qid with
      | none => ((genQs bs si (j + 1) rest).1, qid :: (genQs bs si (j + 1) rest).2)
      | some tb => (qHeaderLine si j tb.1 :: splitLines tb.2 ++ [[]] ++
                      (genQs bs si (j + 1) rest).1,
                    (genQs bs si (j + 1) rest).2) := by
  rcases h : genQs bs si (j + 1) rest with ⟨out, errs⟩
  simp only [genQs, h]
  cases List.lookup qid bs with
  | none => rfl
  | some tb =>
    rcases tb with ⟨t, b⟩
    rfl

theorem genQs_filters (bs : RawBlocks) (si : Nat) : ∀ (qids : List Line) (j : Nat),
    (∀ qid ∈ qids, ∀ tb, bs.lookup qid = some tb → ∀ l ∈ splitLines tb.2,
        startsW ['#', '#', ' '] l = false ∧ startsW ['#', '#', '#', ' '] l = false) →
    (genQs bs si j qids).1.filter (fun l => startsW ['#', '#', ' '] l) = [] ∧
    (genQs bs si j qids).1.filter (fun l => startsW ['#', '#', '#', ' '] l) =
      (qids.enumFrom j).filterMap
        (fun q => (bs.lookup q.2).map (fun tb => qHeaderLine si q.1 tb.1)) := by
  intro qids
  induction qids with
  | nil => intro j _; exact ⟨rfl, rfl⟩
  | cons qid rest ih =>
    intro j hcl
    have hrest := ih (j + 1) (fun q hq => hcl q (List.mem_cons_of_mem _ hq))
    rw [show List.enumFrom j (qid :: rest) = (j, qid) :: List.enumFrom (j + 1) rest from rfl,
        List.filterMap_cons]
    cases hlk : bs.lookup qid with
    | none =>
      rw [genQs_destruct, hlk]
      simp only [Option.map_none]
      exact hrest
    | some tb =>
      have hbody : ∀ l ∈ splitLines tb.2,
          startsW ['#', '#', ' '] l = false ∧ startsW ['#', '#', '#', ' '] l = false :=
        hcl qid (List.mem_cons_self _ _) tb hlk
      have hb2 : (splitLines tb.2).filter (fun l => startsW ['#', '#', ' '] l) = [] :=
        List.filter_eq_nil_iff.mpr (fun l hl => by simp [(hbody l hl).1])
      have hb3 : (splitLines tb.2).filter (fun l => startsW ['#', '#', '#', ' '] l) = [] :=
        List.filter_eq_nil_iff.mpr (fun l hl => by simp [(hbody l hl).2])
      rw [genQs_destruct, hlk]
      simp only [Option.map_some]
      constructor
      · rw [show qHeaderLine si j tb.1 :: splitLines tb.2 ++ [[]] ++
              (genQs bs si (j + 1) rest).1 =
            qHeaderLine si j tb.1 :: (splitLines tb.2 ++ ([[]] ++
              (genQs bs si (j + 1) rest).1)) from by simp,
            List.filter_cons, startsW2_qHeader, List.filter_append, hb2,
            List.filter_append, hrest.1]
        simp [startsW2_nil]
      · rw [show qHeaderLine si j tb.1 :: splitLines tb.2 ++ [[]] ++
              (genQs bs si (j + 1) rest).1 =
            qHeaderLine si j tb.1 :: (splitLines tb.2 ++ ([[]] ++
              (genQs bs si (j + 1) rest).1)) from by simp,
            List.filter_cons, startsW3_qHeader, List.filter_append, hb3,
            List.filter_append, hrest.2]
        simp [startsW3_nil]

theorem genQs_errs (bs : RawBlocks) (si : Nat) : ∀ (qids : List Line) (j : Nat),
    (genQs bs si j qids).2 = qids.filter (fun q => (bs.lookup q).isNone) := by
  intro qids
  induction qids with
  | nil => intro j; rfl
  | cons qid rest ih =>
    intro j
    rw [List.filter_cons]
    cases hlk : bs.lookup qid with
    | none =>
      rw [genQs_destruct, hlk]
      simp [ih (j + 1), hlk]
    | some tb =>
      rw [genQs_destruct, hlk]
      simp [ih (j + 1), hlk]

theorem genSecs_destruct (bs : RawBlocks) (i : Nat) (t : Line) (qids : List Line)
    (rest : Plan) :
    genSecs bs i ((t, qids) :: rest) =
      (['-', '-', '-'] :: [] :: secHeaderLine i t :: [] :: (genQs bs i 1 qids).1 ++
         (genSecs bs (i + 1) rest).1,
       (genQs bs i 1 qids).2 ++ (genSecs bs (i + 1) rest).2) := by
  rcases h1 : genQs bs i 1 qids with ⟨qout, qerrs⟩
  rcases h2 : genSecs bs (i + 1) rest with ⟨out, errs⟩
  simp only [genSecs, h1, h2]

theorem genSecs_filters (bs : RawBlocks) : ∀ (plan : Plan) (i : Nat),
    (∀ p ∈ plan, ∀ qid ∈ p.2, ∀ tb, bs.lookup qid = some tb → ∀ l ∈ splitLines tb.2,
        startsW ['#', '#', ' '] l = false ∧ startsW ['#', '#', '#', ' '] l = false) →
    (genSecs bs i plan).1.filter (fun l => startsW ['#', '#', ' '] l) =
      (plan.enumFrom i).map (fun p => secHeaderLine p.1 p.2.1) ∧
    (genSecs bs i plan).1.filter (fun l => startsW ['#', '#', '#', ' '] l) =
      ((plan.enumFrom i).map (fun p => (p.2.2.enumFrom 1).filterMap
        (fun q => (bs.lookup q.2).map (fun tb => qHeaderLine p.1 q.1 tb.1)))).flatten := by
  intro plan
  induction plan with
  | nil => intro i _; exact ⟨rfl, rfl⟩
  | cons p rest ih =>
    intro i hcl
    rcases p with ⟨t, qids⟩
    have hq := genQs_filters bs i qids 1 (hcl (t, qids) (List.mem_cons_self _ _))
    have hrest := ih (i + 1) (fun p hp => hcl p (List.mem_cons_of_mem _ hp))
    rw [genSecs_destruct,
        show List.enumFrom i ((t, qids) :: rest) =
          (i, t, qids) :: List.enumFrom (i + 1) rest from rfl]
    constructor
    · rw [show ['-', '-', '-'] :: [] :: secHeaderLine i t :: [] :: (genQs bs i 1 qids).1 ++
            (genSecs bs (i + 1) rest).1 =
          ['-', '-', '-'] :: [] :: secHeaderLine i t :: [] :: ((genQs bs i 1 qids).1 ++
            (genSecs bs (i + 1) rest).1) from by simp,
          List.filter_cons, List.filter_cons, List.filter_cons, List.filter_cons,
          List.filter_append, hq.1, hrest.1, startsW2_secHeader]
      simp [startsW2_nil, startsW2_div]
    · rw [show ['-', '-', '-'] :: [] :: secHeaderLine i t :: [] :: (genQs bs i 1 qids).1 ++
            (genSecs bs (i + 1) rest).1 =
          ['-', '-', '-'] :: [] :: secHeaderLine i t :: [] :: ((genQs bs i 1 qids).1 ++
            (genSecs bs (i + 1) rest).1) from by simp,
          List.filter_cons, List.filter_cons, List.filter_cons, List.filter_cons,
          List.filter_append, hq.2, hrest.2, startsW3_secHeader]
      simp [startsW3_nil, startsW3_div]

theorem genSecs_errs (bs : RawBlocks) : ∀ (plan : Plan) (i : Nat),
    (genSecs bs i plan).2 =
      (plan.map (fun p => p.2.filter (fun q => (bs.lookup q).isNone))).flatten := by
  intro plan
  induction plan with
  | nil => intro i; rfl
  | cons p rest ih =>
    intro i
    rcases p with ⟨t, qids⟩
    rw [genSecs_destruct]
    simp [genQs_errs, ih (i + 1)]

theorem contains_false_iff (xs : List Line) (a : Line) :
    (xs.contains a = false) ↔ a ∉ xs := by
  rw [← Bool.not_eq_true, List.elem_iff]

theorem generate_eta (bs : RawBlocks) (plan : Plan) (removed : List Line) :
    generate bs plan removed =
      ⟨genPreamble ++ (genSecs bs 1 plan).1 ++ genTail,
       ((bs.map Prod.fst).mergeSort idLE).filter
         (fun id => !((plan.map Prod.snd).flatten.contains id) && !(removed.contains id)),
       (genSecs bs 1 plan).2⟩ := by
  rcases h : genSecs bs 1 plan with ⟨body, errs⟩
  simp only [generate, h]

/-! ## The claims -/

/-- C1.  The spec asserts that the rewriter's skip-loop boundary
predicates and the parser's slot-boundary rules agree on every line.
They agree exactly on well-formed lines (`lineOK`): on such a line the
rewriter stops its skip loop iff the parser would close the collecting
slot.  On lines violating `lineOK` — for instance a line beginning
with `**` — the two disagree (see the counterexample). -/
theorem C1_boundary_agreement (l : Line) (h : lineOK l = true) :
    rBoundary l = pBoundary l :=
  (boundary_agree l h).symm

theorem C1_witness :
    lineOK (("hi there").data) = true ∧
    rBoundary (("hi there").data) = pBoundary (("hi there").data) :=
  ⟨by decide, C1_boundary_agreement (("hi there").data) (by decide)⟩

theorem C1_counterexample :
    rBoundary (("**x").data) = true ∧ pBoundary (("**x").data) = false := by
  decide

/-- C2.  Slot isolation of the rewriter: every document decomposes into
plain lines and answer slots (`docSegs`, whose segments concatenate
back to the input), the rewriter's output is exactly the segment-wise
replacement, a plain segment — every line outside a slot span — is
emitted byte for byte, and a slot's replacement keeps its marker line
and depends only on that slot's own key, never on the old content. -/
theorem C2_slot_isolation (ans : AMap) (ls : List Line) :
    segsLines (docSegs ls) = ls ∧
    saveLines ans ls = segsOut ans (docSegs ls) ∧
    (∀ l : Line, replaceSeg ans (Seg.plain l) = [l]) ∧
    (∀ (m : Line) (k : Option Line) (c : List Line),
      replaceSeg ans (Seg.slot m k c) = m :: (insOfKey ans k ++ [[]])) :=
  ⟨docSegs_lines ls, saveLines_eq_segsOut ans ls, fun _ => rfl, fun _ _ _ => rfl⟩

/-- C3.  Round trip.  The spec claims that, for every document,
rewriting with the model's own answers reproduces the text modulo the
trailing blank line after each slot; that fails in general — see the
counterexample, where an interior line changes.  The round trip is
exact (not merely modulo trailing blanks) on well-formed documents:
every line `lineOK`, all markers inside attached questions, every slot
already in the normal form the rewriter itself emits, and pairwise
distinct slot keys. -/
theorem C3_round_trip (ls : List Line)
    (hok : ∀ l ∈ ls, lineOK l = true)
    (hatt : markersAttached ls = true)
    (hnorm : slotsNormal ls = true)
    (hkeys : ((segPairs (docSegs ls)).map Prod.fst).Nodup) :
    saveLines (modelMap (parseLines ls)) ls = ls :=
  roundTrip_exact ls hok hatt hnorm hkeys

theorem C3_witness : saveLines (modelMap (parseLines wfDoc)) wfDoc = wfDoc :=
  C3_round_trip wfDoc (by decide) (by decide) (by decide) (by decide)

theorem C3_counterexample :
    (saveLines (modelMap (parseLines shiftDoc)) shiftDoc).length = shiftDoc.length ∧
    (saveLines (modelMap (parseLines shiftDoc)) shiftDoc).getD 3 [] = ("hi").data ∧
    shiftDoc.getD 3 [] = [] := by
  decide

/-- C4.  Idempotence of rewrite.  Unconditional idempotence fails: an
answer whose stored text is itself a boundary-looking line (for
instance one starting with `**`) is skipped over by the second pass
and duplicated (see the counterexample).  Rewriting is idempotent
whenever no stored answer contains a line the rewriter's skip loop
treats as a boundary. -/
theorem C4_rewrite_idempotent (ans : AMap)
    (h : ∀ k v, ans k = some v → ∀ l ∈ splitLines v, rBoundary l = false)
    (t : Line) :
    rewriteText ans (rewriteText ans t) = rewriteText ans t :=
  rewriteText_idem ans h t

theorem C4_witness :
    rewriteText plainAns (rewriteText plainAns crossText) =
      rewriteText plainAns crossText :=
  C4_rewrite_idempotent plainAns
    (by
      intro k v hv
      simp only [plainAns] at hv
      split at hv
      · injection hv with h
        subst h
        decide
      · cases hv)
    crossText

theorem C4_counterexample :
    rewriteText crossAns (rewriteText crossAns crossText) ≠
      rewriteText crossAns crossText := by
  decide

/-- C5.  Full replacement on lookup miss: the rewriter's output for a
slot never depends on the old content (which is dropped entirely,
never merged), and a slot whose key is absent from the mapping — or
whose mapped text is blank after stripping — is emitted as just its
marker line followed by one blank line. -/
theorem C5_full_replacement (ans : AMap) (ls : List Line) :
    saveLines ans ls = segsOut ans (docSegs ls) ∧
    (∀ (m : Line) (k : Option Line) (c c' : List Line),
      replaceSeg ans (Seg.slot m k c) = replaceSeg ans (Seg.slot m k c')) ∧
    (∀ (m : Line) (c : List Line), replaceSeg ans (Seg.slot m none c) = [m, []]) ∧
    (∀ (m key : Line) (c : List Line), ans key = none →
      replaceSeg ans (Seg.slot m (some key) c) = [m, []]) ∧
    (∀ (m key v : Line) (c : List Line), ans key = some v → trimL v = [] →
      replaceSeg ans (Seg.slot m (some key) c) = [m, []]) := by
  refine ⟨saveLines_eq_segsOut ans ls, fun _ _ _ _ => rfl, fun _ _ => rfl, ?_, ?_⟩
  · intro m key c h
    simp [replaceSeg, insOfKey, h]
  · intro m key v c h1 h2
    simp [replaceSeg, insOfKey, h1, h2]

/-- C6.  Parser totality and graceful degradation, amended:
`parseLines` is a total function, and a line matching no structural
pattern is (a) discarded when no question is current, (b) appended to
the body buffer when a question is current and no slot is being
collected — the description then keeps exactly the body lines that are
neither options nor table rows nor blank — but (c) appended to the
pending answer, not the body, while a slot is being collected; the
spec's unconditional "ends up in the description" fails on such lines
(see the counterexample). -/
theorem C6_graceful_degradation :
    (∀ lines : List Line, (processBody lines).1 = joinTrim (lines.filter descLine)) ∧
    (∀ (s : PState) (l : Line), sectionHdr? l = none → questionHdrFull? l = none →
      s.curQ = none → pstep s l = s) ∧
    (∀ (s : PState) (l : Line) (c : CurQ), s.curQ = some c →
      sectionHdr? l = none → questionHdrFull? l = none → markerRE l = false →
      s.collecting = false → (pstep s l).bodyBuf = s.bodyBuf ++ [l]) ∧
    (∀ (s : PState) (l : Line) (c : CurQ), s.curQ = some c →
      sectionHdr? l = none → questionHdrFull? l = none → markerRE l = false →
      s.collecting = true → trimL l ≠ ['-', '-', '-'] → subPromptFull l = false →
      (pstep s l).ansBuf = s.ansBuf ++ [l] ∧ (pstep s l).bodyBuf = s.bodyBuf) := by
  refine ⟨fun lines => (processBody_desc_opts lines).1, ?_, ?_, ?_⟩
  · intro s l hs hq hc
    simp [pstep, hs, hq, hc]
  · intro s l c hc hs hq hm hcol
    simp [pstep, hs, hq, hc, hm, hcol]
  · intro s l c hc hs hq hm hcol hd hsp
    constructor
    · simp [pstep, hs, hq, hc, hm, hcol, hd, hsp]
    · simp [pstep, hs, hq, hc, hm, hcol, hd, hsp]

theorem C6_counterexample :
    (parseLines inSlotDoc).map (fun sec => sec.questions.map
        (fun q => (q.description, q.answers))) =
      [[(([] : Line), [("hello").data])]] ∧
    sectionHdr? (("hello").data) = none ∧
    questionHdrFull? (("hello").data) = none ∧
    optOf (("hello").data) = none ∧
    startsW ['|'] (trimL (("hello").data)) = false ∧
    (trimL (("hello").data)).isEmpty = false := by
  decide

/-- C7.  Default-option invariant, amended: the parsed options are the
per-line classification of the body — a default comes exactly from a
bold-delimited line, a non-default from a plain one — so a question
has at most one default option provided at most one of its body lines
is bold-delimited.  Two bold lines yield two defaults (see the
counterexample), refuting the spec's unconditional "at most one". -/
theorem C7_default_invariant (lines : List Line)
    (hb : (lines.filter (fun l => (boldOpt? l).isSome)).length ≤ 1) :
    (processBody lines).2.1 = lines.filterMap optOf ∧
    (∀ (l : Line) (o : QOption), optOf l = some o → o.deflt = (boldOpt? l).isSome) ∧
    ((processBody lines).2.1.filter (fun o => o.deflt)).length ≤ 1 := by
  refine ⟨(processBody_desc_opts lines).2, ?_, ?_⟩
  · intro l o ho
    cases hbo : boldOpt? l with
    | some v =>
      obtain ⟨c, txt, extra⟩ := v
      rw [optOf_bold l c txt extra hbo] at ho
      injection ho with ho
      rw [← ho]
      rfl
    | none =>
      cases hp : plainOpt? l with
      | some v =>
        obtain ⟨c, txt⟩ := v
        rw [optOf_plain l c txt hbo hp] at ho
        injection ho with ho
        rw [← ho]
        rfl
      | none =>
        rw [optOf_none l hbo hp] at ho
        cases ho
  · rw [(processBody_desc_opts lines).2, defaults_count]
    exact hb

theorem C7_witness :
    (oneBoldBody.filter (fun l => (boldOpt? l).isSome)).length ≤ 1 ∧
    ((processBody oneBoldBody).2.1.filter (fun o => o.deflt)).length ≤ 1 :=
  ⟨by decide, (C7_default_invariant oneBoldBody (by decide)).2.2⟩

theorem C7_counterexample :
    (parseLines twoBoldDoc).map (fun sec => sec.questions.map
        (fun q => q.options.map (fun o => o.deflt))) = [[[true, true]]] := by
  decide

/-- C8.  Migration renumbering, amended: in the generated output (for
source bodies free of header-like lines) the section headers are
exactly `secHeaderLine k title` for k = 1..N in plan order — contiguous
with no gaps — while a question header is emitted as
`qHeaderLine k j title` with j the 1-based *position of the old id in
the plan's list*, and only for ids present in the source; the ordinal
advances across missing ids, so within a section the ordinals are
contiguous 1..M only when every id of that section's list is present
(the counterexample shows a section whose only question carries
ordinal 2). -/
theorem C8_renumbering (bs : RawBlocks) (plan : Plan) (removed : List Line)
    (hclean : ∀ b ∈ bs, ∀ l ∈ splitLines b.2.2,
      startsW ['#', '#', ' '] l = false ∧ startsW ['#', '#', '#', ' '] l = false) :
    (generate bs plan removed).out.filter (fun l => startsW ['#', '#', ' '] l) =
      (plan.enumFrom 1).map (fun p => secHeaderLine p.1 p.2.1) ∧
    (generate bs plan removed).out.filter (fun l => startsW ['#', '#', '#', ' '] l) =
      ((plan.enumFrom 1).map (fun p => (p.2.2.enumFrom 1).filterMap
        (fun q => (bs.lookup q.2).map (fun tb => qHeaderLine p.1 q.1 tb.1)))).flatten := by
  have hcl : ∀ p ∈ plan, ∀ qid ∈ p.2, ∀ tb, bs.lookup qid = some tb →
      ∀ l ∈ splitLines tb.2,
      startsW ['#', '#', ' '] l = false ∧ startsW ['#', '#', '#', ' '] l = false := by
    intro p _ qid _ tb hlk l hl
    exact hclean (qid, tb) (rawLookup_mem bs qid tb hlk) l hl
  have hsec := genSecs_filters bs plan 1 hcl
  rw [generate_eta]
  constructor
  · show (genPreamble ++ (genSecs bs 1 plan).1 ++ genTail).filter _ = _
    rw [List.filter_append, List.filter_append, hsec.1,
        show genPreamble.filter (fun l => startsW ['#', '#', ' '] l) = [] from by decide,
        show genTail.filter (fun l => startsW ['#', '#', ' '] l) = [] from by decide]
    simp
  · show (genPreamble ++ (genSecs bs 1 plan).1 ++ genTail).filter _ = _
    rw [List.filter_append, List.filter_append, hsec.2,
        show genPreamble.filter (fun l => startsW ['#', '#', '#', ' '] l) = [] from by decide,
        show genTail.filter (fun l => startsW ['#', '#', '#', ' '] l) = [] from by decide]
    simp

theorem C8_witness :
    (generate cleanBs cleanPlan []).out.filter (fun l => startsW ['#', '#', ' '] l) =
      [secHeaderLine 1 (("S").data)] := by
  rw [(C8_renumbering cleanBs cleanPlan [] (by decide)).1]
  decide

theorem C8_counterexample :
    (generate gapBs gapPlan []).out.filter (fun l => startsW ['#', '#', '#', ' '] l) =
      [("### 1.2 T").data] ∧
    (("### 1.1 T").data) ∉ (generate gapBs gapPlan []).out ∧
    (generate gapBs gapPlan []).errors = [("9.9").data] := by
  decide

/-- C9.  Migrator validation: an old id of the source is warned about
iff it appears in no plan entry and not in the removed set; a plan id
is reported as an error iff it is absent from the source; all such
violations are collected (the characterizations are exact, so none is
dropped and neither kind masks the other), and the error list is empty
exactly when every plan id exists in the source — a violating run is
thus never silent. -/
theorem C9_validation (bs : RawBlocks) (plan : Plan) (removed : List Line) :
    (∀ id : Line, id ∈ (generate bs plan removed).warnings ↔
      (id ∈ bs.map Prod.fst ∧ id ∉ (plan.map Prod.snd).flatten ∧ id ∉ removed)) ∧
    (∀ id : Line, id ∈ (generate bs plan removed).errors ↔
      ∃ p ∈ plan, id ∈ p.2 ∧ bs.lookup id = none) ∧
    ((generate bs plan removed).errors = [] ↔
      ∀ p ∈ plan, ∀ id ∈ p.2, bs.lookup id ≠ none) := by
  rw [generate_eta]
  refine ⟨?_, ?_, ?_⟩
  · intro id
    show id ∈ ((bs.map Prod.fst).mergeSort idLE).filter _ ↔ _
    rw [List.mem_filter, List.mem_mergeSort]
    simp only [Bool.and_eq_true, Bool.not_eq_true']
    rw [contains_false_iff, contains_false_iff]
  · intro id
    show id ∈ (genSecs bs 1 plan).2 ↔ _
    rw [genSecs_errs, List.mem_flatten]
    constructor
    · rintro ⟨x, hx, hidx⟩
      rw [List.mem_map] at hx
      obtain ⟨p, hp, rfl⟩ := hx
      rw [List.mem_filter] at hidx
      refine ⟨p, hp, hidx.1, ?_⟩
      have h2 := hidx.2
      rwa [Option.isNone_iff_eq_none] at h2
    · rintro ⟨p, hp, hid, hnone⟩
      refine ⟨p.2.filter (fun q => (bs.lookup q).isNone), List.mem_map.mpr ⟨p, hp, rfl⟩, ?_⟩
      rw [List.mem_filter]
      exact ⟨hid, by rw [Option.isNone_iff_eq_none]; exact hnone⟩
  · show (genSecs bs 1 plan).2 = [] ↔ _
    rw [genSecs_errs, List.flatten_eq_nil_iff]
    constructor
    · intro h p hp id hid hnone
      have hx := h _ (List.mem_map.mpr ⟨p, hp, rfl⟩)
      rw [List.filter_eq_nil_iff] at hx
      exact hx id hid (by rw [Option.isNone_iff_eq_none]; exact hnone)
    · intro h x hx
      rw [List.mem_map] at hx
      obtain ⟨p, hp, rfl⟩ := hx
      rw [List.filter_eq_nil_iff]
      intro a ha hcontra
      rw [Option.isNone_iff_eq_none] at hcontra
      exact h p hp a ha hcontra

/-- C10.  Answer-count invariant of the parser: each parsed question's
answers list has exactly one entry per answer-marker line occurring
between its header and the next question/section header or end of
input; `markerCounts` computes those counts by a direct scan of the
lines, covering adjacent markers and slots closed by a sub-prompt, a
divider or end of input. -/
theorem C10_answer_counts (ls : List Line) :
    (parseLines ls).map (fun sec => sec.questions.map (fun q => q.answers.length)) =
      markerCounts ls :=
  parse_counts_eq_markerCounts ls

end Burst
